import Mathlib

/-!
Verification of the candidate-selection core of the flrtvc module
(`library/flrtvc.py`): the batch conflict resolver `check_epkgs`, the
timestamp normalizer `to_utc_epoch`, and the two table parsers
`parse_lpps_info` and `parse_emgr`.

The Python code is shallowly embedded: each regular expression used by the
source is modelled by an explicit character-list parser with the same
acceptance behaviour, Python dicts become insertion-ordered association
lists, Python `sorted` (a stable sort) becomes `List.insertionSort`, and
the uncaught `ValueError` that `int()` can raise becomes `Except.error`.
The embedding targets the list semantics of `OrderedDict(...).keys()`
(the code removes elements from that object, which is list behaviour).
-/

namespace Flrtvc

/-- Python's `\s` class restricted to the characters that can occur in the
line-oriented inputs handled here (space, tab, newline, carriage return,
vertical tab, form feed). -/
def isPySpace (c : Char) : Bool :=
  c = ' ' || c = '\t' || c = '\n' || c = '\r' || c = '\x0b' || c = '\x0c'

/-- Python `str.rstrip()` on a list of characters: drop trailing whitespace. -/
def pyRstripL (cs : List Char) : List Char :=
  (cs.reverse.dropWhile isPySpace).reverse

/-- Maximal leading run of whitespace characters and the remainder
(the `\s*` / `\s+` building block of the regexes). -/
def spanSpace (cs : List Char) : List Char × List Char :=
  (cs.takeWhile isPySpace, cs.dropWhile isPySpace)

/-- Maximal leading run of non-whitespace characters and the remainder
(the `\S*` / `\S+` building block of the regexes). -/
def spanTok (cs : List Char) : List Char × List Char :=
  (cs.takeWhile (fun c => !isPySpace c), cs.dropWhile (fun c => !isPySpace c))

/-- Strip a literal pattern from the front of a character list
(the literal part of an anchored regex). -/
def stripLit : List Char → List Char → Option (List Char)
  | [], cs => some cs
  | _ :: _, [] => none
  | p :: ps, c :: cs => if p = c then stripLit ps cs else none

/-- Character class `\d`. -/
def isDigitC (c : Char) : Bool :=
  '0' ≤ c && c ≤ '9'

/-- Character class `[\d+\.]` used by the prerequisite-level regex. -/
def isLvlChar (c : Char) : Bool :=
  isDigitC c || c = '+' || c = '.'

/-- Numeric value of a list of decimal digits. -/
def digitsVal : List Char → Nat
  | [] => 0
  | c :: cs => digitsVal cs + (c.toNat - 48) * 10 ^ cs.length

/-- Python `int(s)`: optional surrounding whitespace, an optional single
sign, then at least one digit (digit-group underscores are not modelled;
they cannot occur in the inputs handled here). -/
def pyInt (s : String) : Option Int :=
  match spanSpace (pyRstripL s.toList) with
  | (_, '+' :: ds) =>
      if ds ≠ [] ∧ ds.all isDigitC then some (digitsVal ds) else none
  | (_, '-' :: ds) =>
      if ds ≠ [] ∧ ds.all isDigitC then some (-(digitsVal ds : Int)) else none
  | (_, ds) =>
      if ds ≠ [] ∧ ds.all isDigitC then some (digitsVal ds) else none

/-- Model of `list(map(int, segs))`, where a failing `int()` raises `ValueError`. -/
def pyIntList : List String → Except String (List Int)
  | [] => .ok []
  | s :: rest =>
    match pyInt s with
    | none => .error ("invalid literal for int() with base 10: " ++ s)
    | some i =>
      match pyIntList rest with
      | .error m => .error m
      | .ok is => .ok (i :: is)

/-- Python `str.split(sep)` for a one-character separator, Python semantics
(empty segments are kept). -/
def splitOnCharL (sep : Char) : List Char → List (List Char)
  | [] => [[]]
  | c :: cs =>
    match splitOnCharL sep cs with
    | [] => [[]]
    | seg :: segs => if c = sep then [] :: seg :: segs else (c :: seg) :: segs

/-- Python `str.split(sep)` on strings. -/
def splitOnCharS (sep : Char) (s : String) : List String :=
  (splitOnCharL sep s.toList).map List.asString

/-- Python list comparison `<` on integer lists: lexicographic, with a
strict prefix comparing less. -/
def pyListLt : List Int → List Int → Bool
  | [], [] => false
  | [], _ :: _ => true
  | _ :: _, [] => false
  | a :: as, b :: bs => a < b || (a = b && pyListLt as bs)

/-- Python string comparison `<`: lexicographic by code point. -/
def pyStrLtL : List Char → List Char → Bool
  | [], [] => false
  | [], _ :: _ => true
  | _ :: _, [] => false
  | a :: as, b :: bs => a.toNat < b.toNat || (a = b && pyStrLtL as bs)

/-- The order `sorted` uses on the reject-reason strings. -/
def strLe (s t : String) : Prop :=
  pyStrLtL t.toList s.toList = false

instance : DecidableRel strLe := fun s t =>
  inferInstanceAs (Decidable (pyStrLtL t.toList s.toList = false))

/-- First-match lookup in an insertion-ordered association list
(Python dict read `d[k]` / `k in d`). -/
def lookupD {α : Type} : List (String × α) → String → Option α
  | [], _ => none
  | (k', v) :: rest, k => if k' = k then some v else lookupD rest k

/-- Python dict write `d[k] = v`: replace in place if the key exists
(keeping its position), else append. -/
def dictInsert {α : Type} (d : List (String × α)) (k : String) (v : α) :
    List (String × α) :=
  if d.any (fun p => p.1 = k) then
    d.map (fun p => if p.1 = k then (k, v) else p)
  else d ++ [(k, v)]

/-- Keys of an association list, in order. -/
def keysOf {α : Type} (d : List (String × α)) : List String :=
  d.map Prod.fst

/-- Append-if-absent, modelling the `if x not in l: l.append(x)` idiom and
insertion-ordered dict-as-set writes. -/
def insertUnique (l : List String) (x : String) : List String :=
  if l.contains x then l else l ++ [x]

/-- Model of `os.path.basename` for POSIX paths: the part after the last slash. -/
def basename (p : String) : String :=
  (p.toList.foldl (fun acc c => if c = '/' then [] else acc ++ [c]) []).asString

/-- One entry of the installed-fileset level table built by
`parse_lpps_info`: the reported version string and its integer vector. -/
structure LppLevel where
  str : String
  int : List Int
deriving DecidableEq, Repr

/-- One entry of the installed-efix table built by `parse_emgr`:
the files and packages recorded for one efix label.  The Python code
stores both as insertion-ordered dicts used as sets. -/
structure EfixEntry where
  files : List String
  packages : List String
deriving DecidableEq, Repr

/-- The per-candidate record built by the parsing loop of `check_epkgs`
(the Python dict literal at the top of the loop). `reject` is `False`
until a rejection reason string is assigned. -/
structure Epkg where
  path : String
  label : String
  pkg_date : Option String
  sec_from_epoch : Int
  filesets : List String
  files : List String
  prereq : List (String × String × String)
  reject : Option String
deriving DecidableEq, Repr

/-- The fresh record `check_epkgs` builds for each candidate path. -/
def initEpkg (path : String) : Epkg :=
  { path := path, label := "", pkg_date := none, sec_from_epoch := -1,
    filesets := [], files := [], prereq := [], reject := none }

/-- Anchored regex `^KW\s+(\S+)$` (used with `KW = LABEL:` and
`KW = EFIX LABEL:`): the literal keyword, at least one space, one
non-space token, end of line. -/
def matchAnchorKV (kw : List Char) (cs : List Char) : Option String :=
  match stripLit kw cs with
  | none => none
  | some r =>
    match spanSpace r with
    | ([], _) => none
    | (_ :: _, r1) =>
      match spanTok r1 with
      | ([], _) => none
      | (tok, r2) => if r2 = [] then some tok.asString else none

/-- Regex `^EFIX ID:\s+\S+$` from `parse_emgr`. -/
def matchEfixId (cs : List Char) : Bool :=
  match stripLit "EFIX ID:".toList cs with
  | none => false
  | some r =>
    match spanSpace r with
    | ([], _) => false
    | (_ :: _, r1) =>
      match spanTok r1 with
      | ([], _) => false
      | (_, r2) => r2 = []

/-- Indented key/value regex `^\s+KW\s+(\S+)\s*?$` (`check_epkgs`, with a
lazy trailing-space tail) or `^\s+KW\s+(\S+)$` (`parse_emgr`), selected by
`lazyTail`; used with `KW = PACKAGE:` and `KW = LOCATION:`. -/
def matchIndentKV (lazyTail : Bool) (kw : List Char) (cs : List Char) :
    Option String :=
  match spanSpace cs with
  | ([], _) => none
  | (_ :: _, r0) =>
    match stripLit kw r0 with
    | none => none
    | some r =>
      match spanSpace r with
      | ([], _) => none
      | (_ :: _, r1) =>
        match spanTok r1 with
        | ([], _) => none
        | (tok, r2) =>
          if (if lazyTail then (spanSpace r2).2 = [] else r2 = []) then
            some tok.asString
          else none

/-- Prerequisite-level regex `^(\S+)\s+([\d+\.]+)\s+([\d+\.]+)\s*?$`:
exactly three space-separated tokens, the second and third drawn from the
class `[\d+\.]` (because the class tokens and the separators cannot
backtrack across a space boundary, the regex accepts a line iff its
tokens have this shape). -/
def matchPrereq (cs : List Char) : Option (String × String × String) :=
  match spanTok cs with
  | ([], _) => none
  | (t1, r1) =>
    match spanSpace r1 with
    | ([], _) => none
    | (_ :: _, r2) =>
      match spanTok r2 with
      | ([], _) => none
      | (t2, r3) =>
        if ¬ t2.all isLvlChar then none
        else
          match spanSpace r3 with
          | ([], _) => none
          | (_ :: _, r4) =>
            match spanTok r4 with
            | ([], _) => none
            | (t3, r5) =>
              if ¬ t3.all isLvlChar then none
              else if (spanSpace r5).2 = [] then
                some (t1.asString, t2.asString, t3.asString)
              else none

/-- A token of the exact shape `\d+:\d+:\d+`. -/
def isTimeTok (t : List Char) : Bool :=
  match splitOnCharL ':' t with
  | [a, b, c] =>
    !a.isEmpty && !b.isEmpty && !c.isEmpty &&
      a.all isDigitC && b.all isDigitC && c.all isDigitC
  | _ => false

/-- Packaging-date regex
`^PACKAGING\s+DATE:\s+(\S+\s+\S+\s+\d+\s+\d+:\d+:\d+\s+\S*\s*\S+).*$`
from `check_epkgs`.  The returned string is capture group 1 with its
original spacing: the first four fields, then one more token, and — when
present — a second trailing token (greedy `\S*\s*\S+`; anything further is
swallowed by `.*`). -/
def matchPkgDate (cs : List Char) : Option String :=
  match stripLit "PACKAGING".toList cs with
  | none => none
  | some r0 =>
    match spanSpace r0 with
    | ([], _) => none
    | (_ :: _, r1) =>
      match stripLit "DATE:".toList r1 with
      | none => none
      | some r2 =>
        match spanSpace r2 with
        | ([], _) => none
        | (_ :: _, r3) =>
          match spanTok r3 with
          | ([], _) => none
          | (t1, r4) =>
            match spanSpace r4 with
            | ([], _) => none
            | (s1, r5) =>
              match spanTok r5 with
              | ([], _) => none
              | (t2, r6) =>
                match spanSpace r6 with
                | ([], _) => none
                | (s2, r7) =>
                  match spanTok r7 with
                  | ([], _) => none
                  | (t3, r8) =>
                    if ¬ t3.all isDigitC then none
                    else
                      match spanSpace r8 with
                      | ([], _) => none
                      | (s3, r9) =>
                        match spanTok r9 with
                        | ([], _) => none
                        | (t4, r10) =>
                          if ¬ isTimeTok t4 then none
                          else
                            match spanSpace r10 with
                            | ([], _) => none
                            | (s4, r11) =>
                              match spanTok r11 with
                              | ([], _) => none
                              | (t5, r12) =>
                                match spanSpace r12 with
                                | (s5, r13) =>
                                  match spanTok r13 with
                                  | ([], _) =>
                                    some (t1 ++ s1 ++ t2 ++ s2 ++ t3 ++ s3 ++
                                      t4 ++ s4 ++ t5).asString
                                  | (t6, _) =>
                                    some (t1 ++ s1 ++ t2 ++ s2 ++ t3 ++ s3 ++
                                      t4 ++ s4 ++ t5 ++ s5 ++ t6).asString

/-- The fields of a date string as decomposed by the two regexes of
`to_utc_epoch` (weekday, month, day, hour, minute, second, year). -/
structure DateParts where
  wd : List Char
  mon : List Char
  day : List Char
  hh : List Char
  mm : List Char
  ss : List Char
  year : List Char
deriving DecidableEq, Repr

/-- Shared front `^(\S+\s+\S+\s+\d+\s+\d+:\d+:\d+)` of the two date
regexes of `to_utc_epoch`; returns the fields and the unconsumed rest. -/
def matchDateCore (cs : List Char) : Option (DateParts × List Char) :=
  match spanTok cs with
  | ([], _) => none
  | (t1, r1) =>
    match spanSpace r1 with
    | ([], _) => none
    | (_ :: _, r2) =>
      match spanTok r2 with
      | ([], _) => none
      | (t2, r3) =>
        match spanSpace r3 with
        | ([], _) => none
        | (_ :: _, r4) =>
          match spanTok r4 with
          | ([], _) => none
          | (t3, r5) =>
            if ¬ t3.all isDigitC then none
            else
              match spanSpace r5 with
              | ([], _) => none
              | (_ :: _, r6) =>
                match spanTok r6 with
                | ([], _) => none
                | (t4, r7) =>
                  match splitOnCharL ':' t4 with
                  | [a, b, c] =>
                    if !a.isEmpty && !b.isEmpty && !c.isEmpty &&
                        a.all isDigitC && b.all isDigitC && c.all isDigitC then
                      some (⟨t1, t2, t3, a, b, c, []⟩, r7)
                    else none
                  | _ => none

/-- Regex `^(\S+\s+\S+\s+\d+\s+\d+:\d+:\d+)\s+(\d{4})$` of `to_utc_epoch`
(no timezone token, four-digit trailing year). -/
def matchDateNoTz (cs : List Char) : Option DateParts :=
  match matchDateCore cs with
  | none => none
  | some (p, rest) =>
    match spanSpace rest with
    | ([], _) => none
    | (_ :: _, r1) =>
      match spanTok r1 with
      | ([], _) => none
      | (y, r2) =>
        if y.length = 4 ∧ y.all isDigitC ∧ r2 = [] then
          some { p with year := y }
        else none

/-- Regex `^(\S+\s+\S+\s+\d+\s+\d+:\d+:\d+)\s+(\S+)\s+(\d{4})$` of
`to_utc_epoch` (timezone token before the year). -/
def matchDateTz (cs : List Char) : Option (DateParts × String) :=
  match matchDateCore cs with
  | none => none
  | some (p, rest) =>
    match spanSpace rest with
    | ([], _) => none
    | (_ :: _, r1) =>
      match spanTok r1 with
      | ([], _) => none
      | (tz, r2) =>
        match spanSpace r2 with
        | ([], _) => none
        | (_ :: _, r3) =>
          match spanTok r3 with
          | ([], _) => none
          | (y, r4) =>
            if y.length = 4 ∧ y.all isDigitC ∧ r4 = [] then
              some ({ p with year := y }, tz.asString)
            else none

/-- ASCII lowercasing (Python compiles its strptime patterns with
`IGNORECASE`). -/
def lowerL (cs : List Char) : List Char :=
  cs.map Char.toLower

/-- The weekday abbreviations accepted by `%a` in the C locale. -/
def weekAbbr : List (List Char) :=
  ["mon", "tue", "wed", "thu", "fri", "sat", "sun"].map String.toList

/-- The month abbreviations accepted by `%b` in the C locale, in order. -/
def monthAbbr : List (List Char) :=
  ["jan", "feb", "mar", "apr", "may", "jun",
   "jul", "aug", "sep", "oct", "nov", "dec"].map String.toList

/-- Month number (1–12) from a lowercased month token. -/
def monthNum (cs : List Char) : Option Nat :=
  match (monthAbbr.indexOf? cs) with
  | none => none
  | some i => some (i + 1)

/-- Proleptic-Gregorian leap-year test used by `datetime.date`. -/
def isLeap (y : Nat) : Bool :=
  y % 4 = 0 && (y % 100 ≠ 0 || y % 400 = 0)

/-- Length of a month. -/
def daysInMonth (y : Nat) (m : Nat) : Nat :=
  if m = 2 then (if isLeap y then 29 else 28)
  else if m = 4 ∨ m = 6 ∨ m = 9 ∨ m = 11 then 30
  else 31

/-- Days in the months strictly before month `m` of year `y`. -/
def daysBeforeMonth (y : Nat) (m : Nat) : Nat :=
  (List.range (m - 1)).foldl (fun acc i => acc + daysInMonth y (i + 1)) 0

/-- Model of `datetime.date(y, m, d).toordinal()`: day count with 0001-01-01 = 1. -/
def toordinal (y m d : Nat) : Nat :=
  365 * (y - 1) + (y - 1) / 4 - (y - 1) / 100 + (y - 1) / 400 +
    daysBeforeMonth y m + d

/-- Model of `time.strptime(s, "%a %b %d %H:%M:%S %Z %Y")` followed by
`calendar.timegm`, on the already-tokenized fields (the `%Z` field is
always the literal `UTC` that `to_utc_epoch` splices in).  `none` is the
`ValueError` path.  Field-width and range checks mirror the strptime
patterns (`%d`: 1–31, no more than two digits; `%H`: 0–23; `%M`: 0–59;
`%S`: 0–61) and `datetime.date`'s validation of the day against the
month and of `year ≥ 1`.  `719163` is `date(1970, 1, 1).toordinal()`. -/
def strptimeTimegm (p : DateParts) : Option Int :=
  if lowerL p.wd ∈ weekAbbr then
    match monthNum (lowerL p.mon) with
    | none => none
    | some m =>
      if p.day.length ≤ 2 ∧ 1 ≤ digitsVal p.day ∧ digitsVal p.day ≤ 31 ∧
          p.hh.length ≤ 2 ∧ digitsVal p.hh ≤ 23 ∧
          p.mm.length ≤ 2 ∧ digitsVal p.mm ≤ 59 ∧
          p.ss.length ≤ 2 ∧ digitsVal p.ss ≤ 61 ∧
          1 ≤ digitsVal p.year ∧
          digitsVal p.day ≤ daysInMonth (digitsVal p.year) m then
        some (((toordinal (digitsVal p.year) m (digitsVal p.day) : Int) -
            719163) * 86400 +
          (digitsVal p.hh : Int) * 3600 + (digitsVal p.mm : Int) * 60 +
          (digitsVal p.ss : Int))
      else none
  else none

/-- The timezone-offset table of `to_utc_epoch`, in tenths of an hour
(the Python table stores hours, with the single fractional entry
`IST: 5.5`; one tenth of an hour is 360 seconds, so every offset in
seconds is exact). -/
def shiftTable : List (String × Int) :=
  [("CDT", -50), ("CEST", 20), ("CET", 10), ("CST", -60), ("CT", -60),
   ("EDT", -40), ("EET", 20), ("EST", -50), ("ET", -50),
   ("IST", 55), ("JST", 90), ("MSK", 30), ("MT", 20), ("NZST", 120),
   ("PDT", -70), ("PST", -80), ("SAST", 20), ("UTC", 0),
   ("WEST", 10), ("WET", 0)]

/-- Model of `to_utc_epoch(date)`: epoch seconds (UTC) and a message; `(-1, msg)`
on failure.  A date with no timezone token is treated as UTC; a
recognized timezone abbreviation is applied as a fixed offset; an
unrecognized one falls back to UTC with a warning (whose text is the
source's literal, unformatted string). -/
def to_utc_epoch (date : String) : Int × String :=
  match matchDateNoTz date.toList with
  | some p =>
    match strptimeTimegm p with
    | none => (-1, "EXCEPTION: cannot parse packaging date")
    | some v => (v, "")
  | none =>
    match matchDateTz date.toList with
    | none => (-1, "bad packaging date format")
    | some (p, tz) =>
      match strptimeTimegm p with
      | none => (-1, "EXCEPTION: cannot parse packaging date")
      | some v =>
        match lookupD shiftTable tz with
        | some sh => (v - sh * 360, "")
        | none => (v, "Unsuported Time Zone: \"TZ\", using \"UTC\"")

/-- One line of the candidate-metadata parsing loop of `check_epkgs`, on
the already-rstripped characters.  Returns the updated record and whether
the loop `break`s (which happens exactly when a prerequisite check
rejects); `Except.error` is the uncaught `ValueError` raised by
`int()` on a malformed level segment. -/
def processLineL (lpps : List (String × LppLevel)) (e : Epkg)
    (l : List Char) : Except String (Epkg × Bool) :=
  if l = [] ∨ l.head? = some '+' then .ok (e, false)
  else
    match (if e.label = "" then matchAnchorKV "LABEL:".toList l else none) with
    | some lbl => .ok ({ e with label := lbl }, false)
    | none =>
      match (if e.pkg_date = none then matchPkgDate l else none) with
      | some d => .ok ({ e with pkg_date := some d }, false)
      | none =>
        match matchIndentKV true "PACKAGE:".toList l with
        | some p => .ok ({ e with filesets := insertUnique e.filesets p }, false)
        | none =>
          match matchIndentKV true "LOCATION:".toList l with
          | some f => .ok ({ e with files := insertUnique e.files f }, false)
          | none =>
            match matchPrereq l with
            | none => .ok (e, false)
            | some (pr, minl, maxl) =>
              match lookupD lpps pr with
              | none =>
                .ok ({ e with
                        prereq := dictInsert e.prereq pr (minl, maxl),
                        reject := some (basename e.path ++
                          ": prerequisite missing: " ++ pr) }, true)
              | some cur =>
                match pyIntList (splitOnCharS '.' minl) with
                | .error m => .error m
                | .ok minI =>
                  match pyIntList (splitOnCharS '.' maxl) with
                  | .error m => .error m
                  | .ok maxI =>
                    if pyListLt cur.int minI || pyListLt maxI cur.int then
                      .ok ({ e with
                              prereq := dictInsert e.prereq pr (minl, maxl),
                              reject := some (basename e.path ++
                                ": prerequisite " ++ pr ++
                                " levels do not match: " ++ minl ++ " < " ++
                                cur.str ++ " < " ++ maxl) }, true)
                    else
                      .ok ({ e with
                              prereq := dictInsert e.prereq pr (minl, maxl) },
                        false)

/-- Run `processLineL` on a raw line (the loop rstrips each line first). -/
def processLine (lpps : List (String × LppLevel)) (e : Epkg)
    (line : String) : Except String (Epkg × Bool) :=
  processLineL lpps e (pyRstripL line.toList)

/-- Fold step for the parsing loop: once the loop has broken (flag
`true`) or raised, further lines are not looked at. -/
def stepLine (lpps : List (String × LppLevel)) :
    Except String (Epkg × Bool) → String → Except String (Epkg × Bool)
  | .error m, _ => .error m
  | .ok (e, true), _ => .ok (e, true)
  | .ok (e, false), line => processLine lpps e line

/-- The whole metadata-parsing loop of `check_epkgs` for one candidate:
fold the lines of the `emgr -dXv3` output over a fresh record. -/
def parseEpkg (lpps : List (String × LppLevel)) (path : String)
    (lines : List String) : Except String (Epkg × Bool) :=
  lines.foldl (stepLine lpps) (.ok (initEpkg path, false))

/-- The flattening of every installed efix's files into one
file → owning-label dict (`locked_files` in `check_epkgs`); an already
present file is not overwritten, so the first writer wins. -/
def buildLockedFiles (efixes : List (String × EfixEntry)) :
    List (String × String) :=
  efixes.foldl
    (fun acc p =>
      p.2.files.foldl
        (fun a f => if a.any (fun q => q.1 = f) then a else a ++ [(f, p.1)])
        acc)
    []

/-- One file of the `for file in epkg['files']` check against
`locked_files`: a file owned by an installed efix overwrites `reject`
and appends one more entry to the reject list. -/
def lockStep (locked : List (String × String)) (acc : Epkg × List String)
    (f : String) : Epkg × List String :=
  match lookupD locked f with
  | some owner =>
    ({ acc.1 with reject := some (basename acc.1.path ++
        ": installed efix " ++ owner ++ " is locking " ++ f) },
      acc.2 ++ [basename acc.1.path ++ ": installed efix " ++ owner ++
        " is locking " ++ f])
  | none => acc

/-- The whole `for file in epkg['files']` loop of `check_epkgs`. -/
def lockPass (locked : List (String × String)) (e : Epkg) :
    Epkg × List String :=
  e.files.foldl (lockStep locked) (e, [])

/-- The packaging-date conversion at the end of the per-candidate body:
`sec_from_epoch` is set from `to_utc_epoch` when a date was captured
(also when conversion failed, in which case the value is the -1
sentinel). -/
def setSec (e : Epkg) : Epkg :=
  match e.pkg_date with
  | some d => { e with sec_from_epoch := (to_utc_epoch d).1 }
  | none => e

/-- The whole per-candidate body of the first loop of `check_epkgs`:
parse the metadata, stop if a prerequisite rejected, then check against
the installed-efix file locks, then convert the packaging date.  Returns
the final record and the reject-list entries this candidate contributed
(empty iff the candidate survives into `epkgs_info`). -/
def evalEpkg (lpps : List (String × LppLevel))
    (locked : List (String × String)) (path : String)
    (lines : List String) : Except String (Epkg × List String) :=
  match parseEpkg lpps path lines with
  | .error m => .error m
  | .ok (e, _) =>
    match e.reject with
    | some r => .ok (e, [r])
    | none =>
      match lockPass locked e with
      | (e1, rjs) =>
        match e1.reject with
        | some _ => .ok (e1, rjs)
        | none => .ok (setSec e1, [])

/-- The first loop of `check_epkgs` over all candidate paths,
accumulating the surviving records (`epkgs_info`, an insertion-ordered
dict keyed by path) and the reject entries. -/
def phase1Aux (lpps : List (String × LppLevel))
    (locked : List (String × String)) :
    List (String × List String) → List (String × Epkg) → List String →
      Except String (List (String × Epkg) × List String)
  | [], info, rej => .ok (info, rej)
  | (p, ls) :: rest, info, rej =>
    match evalEpkg lpps locked p ls with
    | .error m => .error m
    | .ok (e, rjs) =>
      match e.reject with
      | some _ => phase1Aux lpps locked rest info (rej ++ rjs)
      | none => phase1Aux lpps locked rest (dictInsert info p e) rej

/-- The sort key relation of
`sorted(epkgs_info.items(), key=lambda t: t[1]['sec_from_epoch'],
reverse=True)`: descending by epoch second.  `sorted` is stable, as is
`List.insertionSort` with this relation. -/
def secGe (a b : String × Epkg) : Prop :=
  b.2.sec_from_epoch ≤ a.2.sec_from_epoch

instance : DecidableRel secGe := fun a b =>
  inferInstanceAs (Decidable (b.2.sec_from_epoch ≤ a.2.sec_from_epoch))

instance : IsTotal (String × Epkg) secGe :=
  ⟨fun a b => Int.le_total b.2.sec_from_epoch a.2.sec_from_epoch⟩

instance : IsTrans (String × Epkg) secGe :=
  ⟨fun _ _ _ hab hbc => le_trans hbc hab⟩

/-- The interlock-exclusion walk of `check_epkgs` over the sorted
records: a candidate whose files are disjoint from the accumulated
`global_file_locks` is kept and extends the lock list; otherwise it is
removed and contributes one `locked by previous efix to install` reject
entry. -/
def greedy : List (String × Epkg) → List String →
    List (String × Epkg) × List String
  | [], _ => ([], [])
  | (p, e) :: rest, locks =>
    if e.files.all (fun f => !locks.contains f) then
      match greedy rest (locks ++ e.files) with
      | (kept, rej) => ((p, e) :: kept, rej)
    else
      match greedy rest locks with
      | (kept, rej) =>
        (kept, (basename e.path ++ ": locked by previous efix to install")
          :: rej)

/-- Model of `check_epkgs(epkg_list, lpps, efixes)`.  Each candidate is given as
its path together with the lines the `emgr -dXv3 | grep` query printed
for it (the query itself is I/O outside the model).  Returns the ordered
accept list of paths and the lexicographically sorted reject list, or
`Except.error` for an uncaught `ValueError`. -/
def check_epkgs (epkg_list : List (String × List String))
    (lpps : List (String × LppLevel)) (efixes : List (String × EfixEntry)) :
    Except String (List String × List String) :=
  match phase1Aux lpps (buildLockedFiles efixes) epkg_list [] [] with
  | .error m => .error m
  | .ok (info, rej1) =>
    match greedy (List.insertionSort secGe info) [] with
    | (kept, rej2) =>
      .ok (kept.map Prod.fst, List.insertionSort strLe (rej1 ++ rej2))

/-- The `epkgs_info` dict `check_epkgs` builds before sorting (empty when
the run raised). -/
def checkInfo (epkg_list : List (String × List String))
    (lpps : List (String × LppLevel)) (efixes : List (String × EfixEntry)) :
    List (String × Epkg) :=
  match phase1Aux lpps (buildLockedFiles efixes) epkg_list [] [] with
  | .error _ => []
  | .ok (info, _) => info

/-- The sort key of an accepted path: its record's `sec_from_epoch`. -/
def secOf (info : List (String × Epkg)) (p : String) : Int :=
  match lookupD info p with
  | some e => e.sec_from_epoch
  | none => -1

/-- Python `re.sub(r'-', '.', s)` on a version string. -/
def hyphensToDots (s : String) : String :=
  (s.toList.map (fun c => if c = '-' then '.' else c)).asString

/-- Model of `parse_lpps_info`, on the lines of the `lslpp -Lcq` output file.
A line with fewer than three colon-separated fields is skipped with a
warning; otherwise field 1 is the fileset name and field 2 its level,
whose hyphens are turned into dots before the dot-split segments go
through `int()` — a non-integer segment raises an uncaught `ValueError`
(`Except.error`). -/
def parse_lpps_aux : List String → List (String × LppLevel) →
    Except String (List (String × LppLevel))
  | [], acc => .ok acc
  | line :: rest, acc =>
    match splitOnCharS ':' line with
    | _ :: name :: ver :: _ =>
      match pyIntList (splitOnCharS '.' (hyphensToDots ver)) with
      | .error m => .error m
      | .ok is => parse_lpps_aux rest (dictInsert acc name ⟨ver, is⟩)
    | _ => parse_lpps_aux rest acc

/-- See `parse_lpps_aux`. -/
def parse_lpps_info (lines : List String) :
    Except String (List (String × LppLevel)) :=
  parse_lpps_aux lines []

/-- Parser state of `parse_emgr`: the efix table built so far and the
current label / file / package context strings. -/
structure EmgrSt where
  efixes : List (String × EfixEntry)
  label : String
  file : String
  package : String
deriving DecidableEq, Repr

/-- Python `efixes[label]['files'][file] = file`: add a file to a label's file
set (the label is always present when this runs, see `emgrLine`). -/
def addEfixFile (efixes : List (String × EfixEntry)) (lbl f : String) :
    List (String × EfixEntry) :=
  efixes.map (fun q =>
    if q.1 = lbl then (q.1, ⟨insertUnique q.2.files f, q.2.packages⟩) else q)

/-- Python `efixes[label]['packages'][package] = package`. -/
def addEfixPackage (efixes : List (String × EfixEntry)) (lbl pk : String) :
    List (String × EfixEntry) :=
  efixes.map (fun q =>
    if q.1 = lbl then (q.1, ⟨q.2.files, insertUnique q.2.packages pk⟩) else q)

/-- One line of `parse_emgr`: blank lines and lines starting with `+` or
`=` are noise; `EFIX ID` resets the context; with no current label, only
an `EFIX LABEL` line is acted on, (re)creating that label's entry with
fresh empty file and package sets; otherwise `LOCATION` and `PACKAGE`
lines add to the current label's sets. -/
def emgrLine (st : EmgrSt) (line : String) : EmgrSt :=
  match pyRstripL line.toList with
  | l =>
    if l = [] ∨ l.head? = some '+' ∨ l.head? = some '=' then st
    else if matchEfixId l then
      { st with label := "", file := "", package := "" }
    else if st.label = "" then
      match matchAnchorKV "EFIX LABEL:".toList l with
      | some lbl =>
        { st with label := lbl, efixes := dictInsert st.efixes lbl ⟨[], []⟩ }
      | none => st
    else
      match matchIndentKV false "LOCATION:".toList l with
      | some f =>
        { st with package := "", file := f,
                  efixes := addEfixFile st.efixes st.label f }
      | none =>
        match matchIndentKV false "PACKAGE:".toList l with
        | some pk =>
          { st with file := "", package := pk,
                    efixes := addEfixPackage st.efixes st.label pk }
        | none => st

/-- Model of `parse_emgr`, on the lines of the `emgr -lv3` output file. -/
def parse_emgr (lines : List String) : List (String × EfixEntry) :=
  (lines.foldl emgrLine ⟨[], "", "", ""⟩).efixes

/-- Modelled from the spec: the spec's description of the aggregate
file-lock map — the first installed patch (in table order) whose files
contain `f` owns `f`.  Compared against `buildLockedFiles` in C7. -/
def firstOwner : List (String × EfixEntry) → String → Option String
  | [], _ => none
  | (lbl, en) :: rest, f =>
    if en.files.contains f then some lbl else firstOwner rest f

/-- Modelled from the spec: conversion of an already-split date with the
timezone taken to be UTC (zero offset) — what "treated as UTC" means in
the spec's sentence about dates with no timezone token.  Compared against
`to_utc_epoch` in C9. -/
def utcResult (p : DateParts) : Int × String :=
  match strptimeTimegm p with
  | none => (-1, "EXCEPTION: cannot parse packaging date")
  | some v => (v, "")

/-- Concrete candidate metadata used in witness runs: the newer tcpdump
efix of the spec's end-to-end scenario. -/
def wLinesA : List String :=
  ["LABEL:            IJ17059s9a",
   "PACKAGING DATE:   Fri Jul 19 10:00:00 CDT 2019",
   "   LOCATION:      /usr/sbin/tcpdump"]

/-- Concrete candidate metadata: the older tcpdump efix of the spec's
end-to-end scenario. -/
def wLinesB : List String :=
  ["LABEL:            IJ12978s9a",
   "PACKAGING DATE:   Fri Feb 15 10:00:00 CDT 2019",
   "   LOCATION:      /usr/sbin/tcpdump"]

/-- Concrete candidate metadata: an unrelated efix touching another file. -/
def wLinesC : List String :=
  ["   LOCATION:      /other"]

/-- The record `check_epkgs` builds for `wLinesA` at path `/t/A.epkg`. -/
def wEpkgA : Epkg :=
  { path := "/t/A.epkg", label := "IJ17059s9a",
    pkg_date := some "Fri Jul 19 10:00:00 CDT 2019",
    sec_from_epoch := 1563548400, filesets := [],
    files := ["/usr/sbin/tcpdump"], prereq := [], reject := none }

/-- The record `check_epkgs` builds for `wLinesB` at path `/t/B.epkg`. -/
def wEpkgB : Epkg :=
  { path := "/t/B.epkg", label := "IJ12978s9a",
    pkg_date := some "Fri Feb 15 10:00:00 CDT 2019",
    sec_from_epoch := 1550242800, filesets := [],
    files := ["/usr/sbin/tcpdump"], prereq := [], reject := none }

/-- The record `check_epkgs` builds for `wLinesC` at path `/t/C.epkg`. -/
def wEpkgC : Epkg :=
  { path := "/t/C.epkg", label := "", pkg_date := none,
    sec_from_epoch := -1, filesets := [], files := ["/other"],
    prereq := [], reject := none }

/-- Installed-level table used by the C5 witness. -/
def wLpps5 : List (String × LppLevel) := [("bos.rte", { str := "7.1", int := [7, 1] })]

/-- Installed-level table used by the C6 witness. -/
def wLpps6 : List (String × LppLevel) :=
  [("bos.rte", { str := "7.1.5.0", int := [7, 1, 5, 0] })]

/-- Partial candidate record after the C5 witness prefix lines. -/
def wS5 : Epkg :=
  { path := "/r/c5.epkg", label := "T1", pkg_date := none,
    sec_from_epoch := -1, filesets := [], files := [], prereq := [],
    reject := none }

/-- Partial candidate record after the C6 witness prefix lines. -/
def wS6 : Epkg :=
  { path := "/r/c6.epkg", label := "T2", pkg_date := none,
    sec_from_epoch := -1, filesets := [], files := [], prereq := [],
    reject := none }

/-- Installed-efix table entry used by the C7 witness. -/
def wEfix1 : EfixEntry := { files := ["/a", "/b"], packages := [] }

/-- Candidate record used by the C8 witness (unparseable packaging date). -/
def wS8 : Epkg :=
  { path := "/r/c8.epkg", label := "",
    pkg_date := some "Xxx Yyy 99 99:99:99 2019",
    sec_from_epoch := -1, filesets := [], files := [], prereq := [],
    reject := none }

/-- Decomposed fields of the no-timezone date used by the C9 witness. -/
def wNoTzParts : DateParts :=
  { wd := "Mon".toList, mon := "Oct".toList, day := "9".toList,
    hh := "23".toList, mm := "35".toList, ss := "09".toList,
    year := "2017".toList }

/-- Parser state used by the C10 witness: a table already holding label
L1 with one file and one package, context reset by an EFIX ID line. -/
def wSt10 : EmgrSt :=
  { efixes := [("L1", { files := ["/f1"], packages := ["pkgA"] })],
    label := "", file := "", package := "" }

/-- Input lines of the C10 concrete run: two EFIX ID blocks carrying the
same EFIX LABEL value. -/
def wEmgrLines : List String :=
  ["EFIX ID: 1", "EFIX LABEL: L1", "   LOCATION:      /f1",
   "   PACKAGE:       pkgA", "EFIX ID: 2", "EFIX LABEL: L1",
   "   LOCATION:      /f2"]

/-! Helper lemmas: takeWhile/dropWhile over concatenations, literal
stripping, and association-list dictionaries. -/

theorem takeWhile_app_all {p : Char → Bool} {xs ys : List Char}
    (h : ∀ x ∈ xs, p x = true) :
    (xs ++ ys).takeWhile p = xs ++ ys.takeWhile p := by
  induction xs with
  | nil => simp
  | cons a l ih =>
    have ha := h a (by simp)
    have ih' := ih (fun x hx => h x (by simp [hx]))
    simp [List.takeWhile_cons, ha, ih']

theorem dropWhile_app_all {p : Char → Bool} {xs ys : List Char}
    (h : ∀ x ∈ xs, p x = true) :
    (xs ++ ys).dropWhile p = ys.dropWhile p := by
  induction xs with
  | nil => simp
  | cons a l ih =>
    have ha := h a (by simp)
    have ih' := ih (fun x hx => h x (by simp [hx]))
    simp [List.dropWhile_cons, ha, ih']

theorem takeWhile_eq_self_all {p : Char → Bool} {xs : List Char}
    (h : ∀ x ∈ xs, p x = true) : xs.takeWhile p = xs := by
  have := @takeWhile_app_all p xs [] h
  simpa using this

theorem dropWhile_eq_nil_all {p : Char → Bool} {xs : List Char}
    (h : ∀ x ∈ xs, p x = true) : xs.dropWhile p = [] := by
  have := @dropWhile_app_all p xs [] h
  simpa using this

theorem takeWhile_ne_nil_head {p : Char → Bool} {l : List Char}
    (h : l.takeWhile p ≠ []) : ∃ c cs, l = c :: cs ∧ p c = true := by
  cases l with
  | nil => simp at h
  | cons a l =>
    refine ⟨a, l, rfl, ?_⟩
    by_contra hpa
    simp [List.takeWhile_cons, hpa] at h

theorem stripLit_eq_app {pat cs r : List Char}
    (h : stripLit pat cs = some r) : cs = pat ++ r := by
  induction pat generalizing cs with
  | nil => simp [stripLit] at h; simp [h]
  | cons p ps ih =>
    cases cs with
    | nil => simp [stripLit] at h
    | cons c cs' =>
      by_cases hp : p = c
      · subst hp
        simp only [stripLit, if_pos rfl] at h
        simp [ih h]
      · simp [stripLit, hp] at h

theorem lookupD_app {α : Type} {d1 d2 : List (String × α)} {k : String} :
    lookupD (d1 ++ d2) k =
      match lookupD d1 k with
      | some v => some v
      | none => lookupD d2 k := by
  induction d1 with
  | nil => simp [lookupD]
  | cons a d ih =>
    by_cases hk : a.1 = k
    · simp [lookupD, hk]
    · simpa [lookupD, hk] using ih

theorem mem_keysOf_cons {α : Type} {a : String × α} {d : List (String × α)}
    {k : String} (hk : a.1 ≠ k) (h : k ∈ keysOf (a :: d)) : k ∈ keysOf d := by
  simp only [keysOf, List.map_cons, List.mem_cons] at h
  rcases h with h1 | h1
  · exact absurd h1.symm hk
  · exact h1

theorem isKey_iff {α : Type} {d : List (String × α)} {k : String} :
    d.any (fun p => p.1 = k) = true ↔ k ∈ keysOf d := by
  induction d with
  | nil => simp [keysOf]
  | cons a d ih =>
    by_cases hk : a.1 = k
    · simp [keysOf, hk]
    · constructor
      · intro h1
        have h2 : d.any (fun p => p.1 = k) = true := by
          simpa [List.any_cons, hk] using h1
        exact List.mem_cons.mpr (Or.inr (ih.mp h2))
      · intro h1
        simp [List.any_cons, ih.mpr (mem_keysOf_cons hk h1)]

theorem lookupD_isSome_iff {α : Type} {d : List (String × α)} {k : String} :
    (lookupD d k).isSome = true ↔ k ∈ keysOf d := by
  induction d with
  | nil => simp [lookupD, keysOf]
  | cons a d ih =>
    by_cases hk : a.1 = k
    · simp [lookupD, keysOf, hk]
    · constructor
      · intro h1
        have h2 : (lookupD d k).isSome = true := by
          simpa [lookupD, hk] using h1
        exact List.mem_cons.mpr (Or.inr (ih.mp h2))
      · intro h1
        simpa [lookupD, hk] using ih.mpr (mem_keysOf_cons hk h1)

theorem lookupD_none_iff {α : Type} {d : List (String × α)} {k : String} :
    lookupD d k = none ↔ k ∉ keysOf d := by
  rw [← lookupD_isSome_iff]
  cases lookupD d k <;> simp

theorem dictInsert_of_not_mem {α : Type} {d : List (String × α)}
    {k : String} (v : α) (h : k ∉ keysOf d) :
    dictInsert d k v = d ++ [(k, v)] := by
  have : d.any (fun p => p.1 = k) = false :=
    Bool.eq_false_iff.mpr (fun hc => h (isKey_iff.mp hc))
  simp [dictInsert, this]

theorem keysOf_dictInsert_of_mem {α : Type} {d : List (String × α)}
    {k : String} (v : α) (h : k ∈ keysOf d) :
    keysOf (dictInsert d k v) = keysOf d := by
  have hany : d.any (fun p => p.1 = k) = true := isKey_iff.mpr h
  simp only [dictInsert, hany, if_true, keysOf, List.map_map]
  apply List.map_congr_left
  intro p _
  by_cases hp : p.1 = k <;> simp [hp]

theorem keysOf_dictInsert_sub {α : Type} {d : List (String × α)}
    {k : String} (v : α) {x : String} (hx : x ∈ keysOf (dictInsert d k v)) :
    x ∈ keysOf d ∨ x = k := by
  by_cases h : k ∈ keysOf d
  · rw [keysOf_dictInsert_of_mem v h] at hx
    exact Or.inl hx
  · rw [dictInsert_of_not_mem v h] at hx
    simp only [keysOf, List.map_append] at hx
    rcases List.mem_append.mp hx with h1 | h1
    · exact Or.inl h1
    · simp at h1
      exact Or.inr h1

theorem nodup_keysOf_dictInsert {α : Type} {d : List (String × α)}
    {k : String} (v : α) (h : (keysOf d).Nodup) :
    (keysOf (dictInsert d k v)).Nodup := by
  by_cases hk : k ∈ keysOf d
  · rwa [keysOf_dictInsert_of_mem v hk]
  · rw [dictInsert_of_not_mem v hk]
    have heq : keysOf (d ++ [(k, v)]) = keysOf d ++ [k] := by simp [keysOf]
    rw [heq, List.nodup_append]
    refine ⟨h, by simp, ?_⟩
    intro x hx
    simp only [List.mem_singleton]
    intro hxk
    exact hk (hxk ▸ hx)

theorem lookupD_map_insert {α : Type} {d : List (String × α)}
    {k : String} (v : α) (hk : k ∈ keysOf d) :
    lookupD (d.map (fun p => if p.1 = k then (k, v) else p)) k = some v := by
  induction d with
  | nil => simp [keysOf] at hk
  | cons a d ih =>
    by_cases hp : a.1 = k
    · rw [List.map_cons, if_pos hp]
      simp [lookupD]
    · rw [List.map_cons, if_neg hp]
      simp only [lookupD, if_neg hp]
      exact ih (mem_keysOf_cons hp hk)

theorem lookupD_dictInsert_self {α : Type} {d : List (String × α)}
    {k : String} (v : α) : lookupD (dictInsert d k v) k = some v := by
  by_cases hk : k ∈ keysOf d
  · have hany : d.any (fun p => p.1 = k) = true := isKey_iff.mpr hk
    simp only [dictInsert, hany, if_true]
    exact lookupD_map_insert v hk
  · rw [dictInsert_of_not_mem v hk, lookupD_app]
    have : lookupD d k = none := lookupD_none_iff.mpr hk
    simp [this, lookupD]

theorem lookupD_of_mem_nodup {α : Type} {d : List (String × α)}
    {k : String} {v : α} (hn : (keysOf d).Nodup) (hm : (k, v) ∈ d) :
    lookupD d k = some v := by
  induction d with
  | nil => simp at hm
  | cons a d ih =>
    have hn2 : a.1 ∉ keysOf d ∧ (keysOf d).Nodup := by
      have : (a.1 :: keysOf d).Nodup := by simpa [keysOf] using hn
      exact List.nodup_cons.mp this
    rcases List.mem_cons.mp hm with h1 | h1
    · rw [← h1]
      simp [lookupD]
    · have hk : k ∈ keysOf d := by
        simp only [keysOf, List.mem_map]
        exact ⟨(k, v), h1, rfl⟩
      have ha : a.1 ≠ k := fun hc => hn2.1 (hc ▸ hk)
      simp only [lookupD, if_neg ha]
      exact ih hn2.2 h1

/-! Helper lemmas: which regexes can match which line shapes.  These
drive the reduction of the per-line parser when a prerequisite line is
reached. -/

theorem matchPrereq_head_space {c : Char} {l : List Char}
    (h : isPySpace c = true) : matchPrereq (c :: l) = none := by
  simp [matchPrereq, spanTok, List.takeWhile_cons, h]

theorem matchPrereq_two_tokens {pre sp tk : List Char}
    (hpre : pre ≠ []) (hpreall : ∀ c ∈ pre, isPySpace c = false)
    (hsp : sp ≠ []) (hspall : ∀ c ∈ sp, isPySpace c = true)
    (htk : tk ≠ []) (htkall : ∀ c ∈ tk, isPySpace c = false) :
    matchPrereq (pre ++ (sp ++ tk)) = none := by
  obtain ⟨s0, sp0, rfl⟩ := List.exists_cons_of_ne_nil hsp
  obtain ⟨t0, tk0, rfl⟩ := List.exists_cons_of_ne_nil htk
  obtain ⟨p0, pre0, rfl⟩ := List.exists_cons_of_ne_nil hpre
  have hpreall2 : ∀ c ∈ p0 :: pre0, (!isPySpace c) = true := by
    intro c hc; simp [hpreall c hc]
  have hspall2 : ∀ c ∈ s0 :: sp0, isPySpace c = true := hspall
  have hs0 : isPySpace s0 = true := hspall s0 (by simp)
  have ht0 : isPySpace t0 = false := htkall t0 (by simp)
  have htw1 : ((p0 :: pre0) ++ ((s0 :: sp0) ++ (t0 :: tk0))).takeWhile
      (fun c => !isPySpace c) = p0 :: pre0 := by
    rw [takeWhile_app_all hpreall2]
    simp [List.takeWhile_cons, hs0]
  have hdw1 : ((p0 :: pre0) ++ ((s0 :: sp0) ++ (t0 :: tk0))).dropWhile
      (fun c => !isPySpace c) = (s0 :: sp0) ++ (t0 :: tk0) := by
    rw [dropWhile_app_all hpreall2]
    simp [List.dropWhile_cons, hs0]
  have htw2 : ((s0 :: sp0) ++ (t0 :: tk0)).takeWhile isPySpace = s0 :: sp0 := by
    rw [takeWhile_app_all hspall2]
    simp [List.takeWhile_cons, ht0]
  have hdw2 : ((s0 :: sp0) ++ (t0 :: tk0)).dropWhile isPySpace = t0 :: tk0 := by
    rw [dropWhile_app_all hspall2]
    simp [List.dropWhile_cons, ht0]
  have htkall2 : ∀ c ∈ t0 :: tk0, (!isPySpace c) = true := by
    intro c hc; simp [htkall c hc]
  have htw3 : (t0 :: tk0).takeWhile (fun c => !isPySpace c) = t0 :: tk0 :=
    takeWhile_eq_self_all htkall2
  have hdw3 : (t0 :: tk0).dropWhile (fun c => !isPySpace c) = [] :=
    dropWhile_eq_nil_all htkall2
  simp only [matchPrereq, spanTok, spanSpace, htw1, hdw1, htw2, hdw2, htw3,
    hdw3]
  by_cases hcl : (t0 :: tk0).all isLvlChar
  · simp [hcl]
  · simp [hcl]

theorem matchPrereq_second_bad {pre sp : List Char} {c : Char}
    {rest : List Char}
    (hpre : pre ≠ []) (hpreall : ∀ x ∈ pre, isPySpace x = false)
    (hsp : sp ≠ []) (hspall : ∀ x ∈ sp, isPySpace x = true)
    (hc1 : isPySpace c = false) (hc2 : isLvlChar c = false) :
    matchPrereq (pre ++ (sp ++ (c :: rest))) = none := by
  obtain ⟨s0, sp0, rfl⟩ := List.exists_cons_of_ne_nil hsp
  obtain ⟨p0, pre0, rfl⟩ := List.exists_cons_of_ne_nil hpre
  have hpreall2 : ∀ x ∈ p0 :: pre0, (!isPySpace x) = true := by
    intro x hx; simp [hpreall x hx]
  have hs0 : isPySpace s0 = true := hspall s0 (by simp)
  have htw1 : ((p0 :: pre0) ++ ((s0 :: sp0) ++ (c :: rest))).takeWhile
      (fun x => !isPySpace x) = p0 :: pre0 := by
    rw [takeWhile_app_all hpreall2]
    simp [List.takeWhile_cons, hs0]
  have hdw1 : ((p0 :: pre0) ++ ((s0 :: sp0) ++ (c :: rest))).dropWhile
      (fun x => !isPySpace x) = (s0 :: sp0) ++ (c :: rest) := by
    rw [dropWhile_app_all hpreall2]
    simp [List.dropWhile_cons, hs0]
  have htw2 : ((s0 :: sp0) ++ (c :: rest)).takeWhile isPySpace = s0 :: sp0 := by
    rw [takeWhile_app_all hspall]
    simp [List.takeWhile_cons, hc1]
  have hdw2 : ((s0 :: sp0) ++ (c :: rest)).dropWhile isPySpace = c :: rest := by
    rw [dropWhile_app_all hspall]
    simp [List.dropWhile_cons, hc1]
  have htw3 : (c :: rest).takeWhile (fun x => !isPySpace x) =
      c :: rest.takeWhile (fun x => !isPySpace x) := by
    simp [List.takeWhile_cons, hc1]
  simp only [matchPrereq, spanTok, spanSpace, htw1, hdw1, htw2, hdw2, htw3]
  have hall : ((c :: rest.takeWhile (fun x => !isPySpace x)).all
      isLvlChar) = false := by
    simp [List.all_cons, hc2]
  simp [hall]

theorem matchAnchorKV_inv {kw l : List Char} {tok : String}
    (h : matchAnchorKV kw l = some tok) :
    ∃ sp tk, l = kw ++ (sp ++ tk) ∧ sp ≠ [] ∧
      (∀ c ∈ sp, isPySpace c = true) ∧ tk ≠ [] ∧
      (∀ c ∈ tk, isPySpace c = false) := by
  unfold matchAnchorKV at h
  cases hs : stripLit kw l with
  | none => rw [hs] at h; simp at h
  | some r =>
    rw [hs] at h
    dsimp only at h
    cases htw : r.takeWhile isPySpace with
    | nil =>
      rw [show spanSpace r = ([], r.dropWhile isPySpace) by
        simp [spanSpace, htw]] at h
      dsimp only at h
      simp at h
    | cons s0 sp0 =>
      rw [show spanSpace r = (s0 :: sp0, r.dropWhile isPySpace) by
        simp [spanSpace, htw]] at h
      dsimp only at h
      cases htk : (r.dropWhile isPySpace).takeWhile (fun c => !isPySpace c) with
      | nil =>
        rw [show spanTok (r.dropWhile isPySpace) =
            ([], (r.dropWhile isPySpace).dropWhile (fun c => !isPySpace c)) by
          simp [spanTok, htk]] at h
        dsimp only at h
        simp at h
      | cons t0 tk0 =>
        rw [show spanTok (r.dropWhile isPySpace) =
            (t0 :: tk0,
              (r.dropWhile isPySpace).dropWhile (fun c => !isPySpace c)) by
          simp [spanTok, htk]] at h
        dsimp only at h
        by_cases hr2 :
            (r.dropWhile isPySpace).dropWhile (fun c => !isPySpace c) = []
        · refine ⟨s0 :: sp0, t0 :: tk0, ?_, by simp, ?_, by simp, ?_⟩
          · have h1 := stripLit_eq_app hs
            have h2 : r = (s0 :: sp0) ++ r.dropWhile isPySpace := by
              conv_lhs => rw [← List.takeWhile_append_dropWhile
                (p := isPySpace) (l := r)]
              rw [htw]
            have h3 : r.dropWhile isPySpace = t0 :: tk0 := by
              conv_lhs => rw [← List.takeWhile_append_dropWhile
                (p := fun c => !isPySpace c) (l := r.dropWhile isPySpace)]
              rw [htk, hr2, List.append_nil]
            rw [h1, h2, h3]
          · intro c hc
            exact List.mem_takeWhile_imp (htw ▸ hc)
          · intro c hc
            have := List.mem_takeWhile_imp (htk ▸ hc)
            simpa using this
        · rw [if_neg hr2] at h
          simp at h

theorem matchPrereq_head {l : List Char} {x : String × String × String}
    (h : matchPrereq l = some x) :
    ∃ c cs, l = c :: cs ∧ isPySpace c = false := by
  unfold matchPrereq spanTok at h
  cases hl : l.takeWhile (fun c => !isPySpace c) with
  | nil => rw [hl] at h; dsimp only at h; exact Option.noConfusion h
  | cons a t =>
    obtain ⟨c, cs, hcons, hc⟩ := takeWhile_ne_nil_head
      (p := fun c => !isPySpace c) (l := l) (by rw [hl]; simp)
    exact ⟨c, cs, hcons, by simpa using hc⟩

theorem matchIndentKV_no_prereq {b : Bool} {kw l : List Char} {x : String}
    (h : matchIndentKV b kw l = some x) : matchPrereq l = none := by
  unfold matchIndentKV at h
  cases htw : l.takeWhile isPySpace with
  | nil =>
    rw [show spanSpace l = ([], l.dropWhile isPySpace) by
      simp [spanSpace, htw]] at h
    dsimp only at h
    exact Option.noConfusion h
  | cons s0 sp0 =>
    obtain ⟨c, cs, hcons, hc⟩ := takeWhile_ne_nil_head
      (p := isPySpace) (l := l) (by rw [htw]; simp)
    rw [hcons]
    exact matchPrereq_head_space hc

theorem label_no_prereq {l : List Char} {x : String}
    (h : matchAnchorKV "LABEL:".toList l = some x) : matchPrereq l = none := by
  obtain ⟨sp, tk, hl, hsp, hspall, htk, htkall⟩ := matchAnchorKV_inv h
  rw [hl]
  exact matchPrereq_two_tokens (by simp) (by decide) hsp hspall htk htkall

theorem pkgdate_no_prereq {l : List Char} {x : String}
    (h : matchPkgDate l = some x) : matchPrereq l = none := by
  unfold matchPkgDate at h
  cases hs : stripLit "PACKAGING".toList l with
  | none => rw [hs] at h; dsimp only at h; exact Option.noConfusion h
  | some r0 =>
    rw [hs] at h
    dsimp only at h
    cases htw : r0.takeWhile isPySpace with
    | nil =>
      rw [show spanSpace r0 = ([], r0.dropWhile isPySpace) by
        simp [spanSpace, htw]] at h
      dsimp only at h
      exact Option.noConfusion h
    | cons s0 sp0 =>
      rw [show spanSpace r0 = (s0 :: sp0, r0.dropWhile isPySpace) by
        simp [spanSpace, htw]] at h
      dsimp only at h
      cases hs2 : stripLit "DATE:".toList (r0.dropWhile isPySpace) with
      | none => rw [hs2] at h; dsimp only at h; exact Option.noConfusion h
      | some r2 =>
        have h1 := stripLit_eq_app hs
        have h2 : r0 = (s0 :: sp0) ++ r0.dropWhile isPySpace := by
          conv_lhs => rw [← List.takeWhile_append_dropWhile
            (p := isPySpace) (l := r0)]
          rw [htw]
        have h3 := stripLit_eq_app hs2
        have hl2 : l = "PACKAGING".toList ++
            ((s0 :: sp0) ++ ('D' :: ("ATE:".toList ++ r2))) := by
          rw [h1, h2, h3]
          rfl
        rw [hl2]
        refine matchPrereq_second_bad (by simp) (by decide) (by simp) ?_
          (by decide) (by decide)
        intro c hc
        exact List.mem_takeWhile_imp (htw ▸ hc)

/-! Helper lemmas on the per-candidate parsing loop. -/

theorem processLineL_path {lpps : List (String × LppLevel)} {e e' : Epkg}
    {l : List Char} {b : Bool}
    (h : processLineL lpps e l = .ok (e', b)) : e'.path = e.path := by
  unfold processLineL at h
  repeat' split at h
  all_goals first
  | exact Except.noConfusion h
  | (simp only [Except.ok.injEq, Prod.mk.injEq] at h
     obtain ⟨h1, h2⟩ := h
     subst h1
     rfl)

theorem processLineL_reject_of_false {lpps : List (String × LppLevel)}
    {e e' : Epkg} {l : List Char}
    (h : processLineL lpps e l = .ok (e', false)) : e'.reject = e.reject := by
  unfold processLineL at h
  repeat' split at h
  all_goals first
  | exact Except.noConfusion h
  | (simp only [Except.ok.injEq, Prod.mk.injEq] at h
     first
     | exact absurd h.2 (by decide)
     | (obtain ⟨h1, h2⟩ := h
        subst h1
        rfl))

theorem foldl_stepLine_error {lpps : List (String × LppLevel)}
    {m : String} (ls : List String) :
    ls.foldl (stepLine lpps) (.error m) = .error m := by
  induction ls with
  | nil => rfl
  | cons l ls ih => simpa [stepLine] using ih

theorem foldl_stepLine_stop {lpps : List (String × LppLevel)}
    {e : Epkg} (ls : List String) :
    ls.foldl (stepLine lpps) (.ok (e, true)) = .ok (e, true) := by
  induction ls with
  | nil => rfl
  | cons l ls ih => simpa [stepLine] using ih

theorem foldl_stepLine_path {lpps : List (String × LppLevel)}
    {e0 e : Epkg} {b0 b : Bool} (ls : List String)
    (h : ls.foldl (stepLine lpps) (.ok (e0, b0)) = .ok (e, b)) :
    e.path = e0.path := by
  induction ls generalizing e0 b0 with
  | nil => simp at h; rw [h.1]
  | cons l ls ih =>
    cases b0 with
    | true =>
      rw [show (l :: ls).foldl (stepLine lpps) (.ok (e0, true)) =
          ls.foldl (stepLine lpps) (.ok (e0, true)) from rfl] at h
      exact ih h
    | false =>
      rw [show (l :: ls).foldl (stepLine lpps) (.ok (e0, false)) =
          ls.foldl (stepLine lpps) (processLine lpps e0 l) from rfl] at h
      cases hp : processLine lpps e0 l with
      | error m =>
        rw [hp, foldl_stepLine_error] at h
        exact Except.noConfusion h
      | ok r =>
        rw [hp] at h
        have := @processLineL_path lpps e0 r.1 (pyRstripL l.toList) r.2 hp
        rw [ih (by simpa using h)]
        exact this

theorem processLine_path {lpps : List (String × LppLevel)} {e e' : Epkg}
    {line : String} {b : Bool}
    (h : processLine lpps e line = .ok (e', b)) : e'.path = e.path :=
  processLineL_path h

theorem processLine_reject_of_false {lpps : List (String × LppLevel)}
    {e e' : Epkg} {line : String}
    (h : processLine lpps e line = .ok (e', false)) : e'.reject = e.reject :=
  processLineL_reject_of_false h

theorem foldl_stepLine_reject {lpps : List (String × LppLevel)}
    {e0 e : Epkg} (ls : List String)
    (h : ls.foldl (stepLine lpps) (.ok (e0, false)) = .ok (e, false)) :
    e.reject = e0.reject := by
  induction ls generalizing e0 with
  | nil =>
    simp at h
    rw [h]
  | cons l ls ih =>
    rw [show (l :: ls).foldl (stepLine lpps) (.ok (e0, false)) =
        ls.foldl (stepLine lpps) (processLine lpps e0 l) from rfl] at h
    cases hp : processLine lpps e0 l with
    | error m =>
      rw [hp, foldl_stepLine_error] at h
      exact Except.noConfusion h
    | ok r =>
      rw [hp] at h
      cases hb : r.2 with
      | true =>
        rw [show r = (r.1, r.2) from rfl, hb, foldl_stepLine_stop] at h
        simp at h
      | false =>
        rw [show r = (r.1, r.2) from rfl, hb] at h
        have hp2 : processLine lpps e0 l = .ok (r.1, false) := by
          rw [hp, ← hb]
        rw [ih h, processLine_reject_of_false hp2]

theorem parseEpkg_path {lpps : List (String × LppLevel)} {path : String}
    {ls : List String} {e : Epkg} {b : Bool}
    (h : parseEpkg lpps path ls = .ok (e, b)) : e.path = path :=
  foldl_stepLine_path ls h

theorem parseEpkg_reject_none {lpps : List (String × LppLevel)}
    {path : String} {ls : List String} {e : Epkg}
    (h : parseEpkg lpps path ls = .ok (e, false)) : e.reject = none :=
  foldl_stepLine_reject ls h



theorem processLineL_no_others {lpps : List (String × LppLevel)} {e : Epkg}
    {l : List Char} {pr minl maxl : String}
    (hpr : matchPrereq l = some (pr, minl, maxl))
    (hplus : l.head? ≠ some '+') :
    processLineL lpps e l =
      match lookupD lpps pr with
      | none =>
        .ok ({ e with
                prereq := dictInsert e.prereq pr (minl, maxl),
                reject := some (basename e.path ++
                  ": prerequisite missing: " ++ pr) }, true)
      | some cur =>
        match pyIntList (splitOnCharS '.' minl) with
        | .error m => .error m
        | .ok minI =>
          match pyIntList (splitOnCharS '.' maxl) with
          | .error m => .error m
          | .ok maxI =>
            if pyListLt cur.int minI || pyListLt maxI cur.int then
              .ok ({ e with
                      prereq := dictInsert e.prereq pr (minl, maxl),
                      reject := some (basename e.path ++
                        ": prerequisite " ++ pr ++
                        " levels do not match: " ++ minl ++ " < " ++
                        cur.str ++ " < " ++ maxl) }, true)
            else
              .ok ({ e with
                      prereq := dictInsert e.prereq pr (minl, maxl) },
                false) := by
  have hne : l ≠ [] := by
    obtain ⟨c, cs, rfl, -⟩ := matchPrereq_head hpr
    simp
  have hcond : ¬(l = [] ∨ l.head? = some '+') := by
    push_neg
    exact ⟨hne, hplus⟩
  have hL : (if e.label = "" then matchAnchorKV "LABEL:".toList l else none)
      = none := by
    split
    · cases hml : matchAnchorKV "LABEL:".toList l with
      | none => rfl
      | some x => rw [label_no_prereq hml] at hpr; exact Option.noConfusion hpr
    · rfl
  have hD : (if e.pkg_date = none then matchPkgDate l else none) = none := by
    split
    · cases hml : matchPkgDate l with
      | none => rfl
      | some x => rw [pkgdate_no_prereq hml] at hpr; exact Option.noConfusion hpr
    · rfl
  have hP : matchIndentKV true "PACKAGE:".toList l = none := by
    cases hml : matchIndentKV true "PACKAGE:".toList l with
    | none => rfl
    | some x =>
      rw [matchIndentKV_no_prereq hml] at hpr
      exact Option.noConfusion hpr
  have hLoc : matchIndentKV true "LOCATION:".toList l = none := by
    cases hml : matchIndentKV true "LOCATION:".toList l with
    | none => rfl
    | some x =>
      rw [matchIndentKV_no_prereq hml] at hpr
      exact Option.noConfusion hpr
  unfold processLineL
  rw [if_neg hcond, hL, hD, hP, hLoc, hpr]

theorem processLineL_prereq_missing {lpps : List (String × LppLevel)}
    {e : Epkg} {l : List Char} {pr minl maxl : String}
    (hpr : matchPrereq l = some (pr, minl, maxl))
    (hplus : l.head? ≠ some '+')
    (hmiss : lookupD lpps pr = none) :
    processLineL lpps e l =
      .ok ({ e with
              prereq := dictInsert e.prereq pr (minl, maxl),
              reject := some (basename e.path ++
                ": prerequisite missing: " ++ pr) }, true) := by
  rw [processLineL_no_others hpr hplus, hmiss]

theorem processLineL_prereq_range {lpps : List (String × LppLevel)}
    {e : Epkg} {l : List Char} {pr minl maxl : String} {cur : LppLevel}
    {minI maxI : List Int}
    (hpr : matchPrereq l = some (pr, minl, maxl))
    (hplus : l.head? ≠ some '+')
    (hcur : lookupD lpps pr = some cur)
    (hmin : pyIntList (splitOnCharS '.' minl) = .ok minI)
    (hmax : pyIntList (splitOnCharS '.' maxl) = .ok maxI)
    (hout : (pyListLt cur.int minI || pyListLt maxI cur.int) = true) :
    processLineL lpps e l =
      .ok ({ e with
              prereq := dictInsert e.prereq pr (minl, maxl),
              reject := some (basename e.path ++ ": prerequisite " ++ pr ++
                " levels do not match: " ++ minl ++ " < " ++ cur.str ++
                " < " ++ maxl) }, true) := by
  rw [processLineL_no_others hpr hplus, hcur, hmin, hmax]
  dsimp only
  rw [if_pos hout]

theorem parseEpkg_stops_missing {lpps : List (String × LppLevel)}
    {path : String} {pre : List String} {line : String} {post : List String}
    {s : Epkg} {pr minl maxl : String}
    (hpre : parseEpkg lpps path pre = .ok (s, false))
    (hpr : matchPrereq (pyRstripL line.toList) = some (pr, minl, maxl))
    (hplus : (pyRstripL line.toList).head? ≠ some '+')
    (hmiss : lookupD lpps pr = none) :
    parseEpkg lpps path (pre ++ line :: post) =
      .ok ({ s with
              prereq := dictInsert s.prereq pr (minl, maxl),
              reject := some (basename path ++
                ": prerequisite missing: " ++ pr) }, true) := by
  have hpath : s.path = path := parseEpkg_path hpre
  unfold parseEpkg
  rw [List.foldl_append]
  rw [show pre.foldl (stepLine lpps) (.ok (initEpkg path, false)) =
      parseEpkg lpps path pre from rfl, hpre]
  rw [show (line :: post).foldl (stepLine lpps) (.ok (s, false)) =
      post.foldl (stepLine lpps) (processLine lpps s line) from rfl]
  rw [show processLine lpps s line =
      processLineL lpps s (pyRstripL line.toList) from rfl]
  rw [processLineL_prereq_missing hpr hplus hmiss, hpath]
  exact foldl_stepLine_stop post

theorem parseEpkg_stops_range {lpps : List (String × LppLevel)}
    {path : String} {pre : List String} {line : String} {post : List String}
    {s : Epkg} {pr minl maxl : String} {cur : LppLevel} {minI maxI : List Int}
    (hpre : parseEpkg lpps path pre = .ok (s, false))
    (hpr : matchPrereq (pyRstripL line.toList) = some (pr, minl, maxl))
    (hplus : (pyRstripL line.toList).head? ≠ some '+')
    (hcur : lookupD lpps pr = some cur)
    (hmin : pyIntList (splitOnCharS '.' minl) = .ok minI)
    (hmax : pyIntList (splitOnCharS '.' maxl) = .ok maxI)
    (hout : (pyListLt cur.int minI || pyListLt maxI cur.int) = true) :
    parseEpkg lpps path (pre ++ line :: post) =
      .ok ({ s with
              prereq := dictInsert s.prereq pr (minl, maxl),
              reject := some (basename path ++ ": prerequisite " ++ pr ++
                " levels do not match: " ++ minl ++ " < " ++ cur.str ++
                " < " ++ maxl) }, true) := by
  have hpath : s.path = path := parseEpkg_path hpre
  unfold parseEpkg
  rw [List.foldl_append]
  rw [show pre.foldl (stepLine lpps) (.ok (initEpkg path, false)) =
      parseEpkg lpps path pre from rfl, hpre]
  rw [show (line :: post).foldl (stepLine lpps) (.ok (s, false)) =
      post.foldl (stepLine lpps) (processLine lpps s line) from rfl]
  rw [show processLine lpps s line =
      processLineL lpps s (pyRstripL line.toList) from rfl]
  rw [processLineL_prereq_range hpr hplus hcur hmin hmax hout, hpath]
  exact foldl_stepLine_stop post

/-! Helper lemmas on the installed-efix lock check and the per-candidate body. -/


theorem lockStep_path {locked : List (String × String)}
    {acc : Epkg × List String} {f : String} :
    (lockStep locked acc f).1.path = acc.1.path := by
  unfold lockStep
  cases lookupD locked f <;> rfl

theorem lockFold_path {locked : List (String × String)} (fs : List String)
    (accE : Epkg) (accL : List String) :
    (fs.foldl (lockStep locked) (accE, accL)).1.path = accE.path := by
  induction fs generalizing accE accL with
  | nil => rfl
  | cons f fs ih =>
    rw [List.foldl_cons]
    rw [show lockStep locked (accE, accL) f =
      ((lockStep locked (accE, accL) f).1,
       (lockStep locked (accE, accL) f).2) from rfl]
    rw [ih]
    exact lockStep_path

theorem lockFold_rejects_mono {locked : List (String × String)}
    (fs : List String) (accE : Epkg) (accL : List String) :
    ∃ t, (fs.foldl (lockStep locked) (accE, accL)).2 = accL ++ t := by
  induction fs generalizing accE accL with
  | nil => exact ⟨[], by simp⟩
  | cons f fs ih =>
    rw [List.foldl_cons]
    cases hl : lookupD locked f with
    | none =>
      rw [show lockStep locked (accE, accL) f = (accE, accL) by
        unfold lockStep; rw [hl]]
      exact ih accE accL
    | some ow =>
      rw [show lockStep locked (accE, accL) f =
        ({ accE with reject := some (basename accE.path ++
            ": installed efix " ++ ow ++ " is locking " ++ f) },
          accL ++ [basename accE.path ++ ": installed efix " ++ ow ++
            " is locking " ++ f]) by
        unfold lockStep; rw [hl]]
      obtain ⟨t, ht⟩ := ih { accE with reject := some (basename accE.path ++
          ": installed efix " ++ ow ++ " is locking " ++ f) }
        (accL ++ [basename accE.path ++ ": installed efix " ++ ow ++
          " is locking " ++ f])
      exact ⟨_, by rw [ht, List.append_assoc]⟩

theorem lockFold_clean {locked : List (String × String)}
    {fs : List String} (acc : Epkg × List String)
    (h : ∀ f ∈ fs, lookupD locked f = none) :
    fs.foldl (lockStep locked) acc = acc := by
  induction fs generalizing acc with
  | nil => rfl
  | cons f fs ih =>
    rw [List.foldl_cons]
    rw [show lockStep locked acc f = acc by
      unfold lockStep; rw [h f (by simp)]]
    exact ih acc (fun g hg => h g (by simp [hg]))

theorem lockFold_mem {locked : List (String × String)}
    {fs : List String} {f ow : String} (accE : Epkg) (accL : List String)
    (hf : f ∈ fs) (how : lookupD locked f = some ow) :
    (basename accE.path ++ ": installed efix " ++ ow ++ " is locking " ++ f)
      ∈ (fs.foldl (lockStep locked) (accE, accL)).2 := by
  induction fs generalizing accE accL with
  | nil => simp at hf
  | cons g fs ih =>
    rw [List.foldl_cons]
    rcases List.mem_cons.mp hf with h1 | h1
    · subst h1
      rw [show lockStep locked (accE, accL) f =
        ({ accE with reject := some (basename accE.path ++
            ": installed efix " ++ ow ++ " is locking " ++ f) },
          accL ++ [basename accE.path ++ ": installed efix " ++ ow ++
            " is locking " ++ f]) by
        unfold lockStep; rw [how]]
      obtain ⟨t, ht⟩ := lockFold_rejects_mono fs _ _
      rw [ht]
      simp
    · rw [show lockStep locked (accE, accL) g =
        ((lockStep locked (accE, accL) g).1,
         (lockStep locked (accE, accL) g).2) from rfl]
      have := ih (lockStep locked (accE, accL) g).1
        (lockStep locked (accE, accL) g).2 h1
      rwa [lockStep_path] at this

theorem lockFold_flag {locked : List (String × String)}
    (fs : List String) (acc : Epkg × List String)
    (h : (acc.1.reject = none ∧ acc.2 = []) ∨
      (acc.1.reject.isSome = true ∧ acc.2 ≠ [])) :
    ((fs.foldl (lockStep locked) acc).1.reject = none ∧
        (fs.foldl (lockStep locked) acc).2 = []) ∨
      ((fs.foldl (lockStep locked) acc).1.reject.isSome = true ∧
        (fs.foldl (lockStep locked) acc).2 ≠ []) := by
  induction fs generalizing acc with
  | nil => exact h
  | cons f fs ih =>
    rw [List.foldl_cons]
    refine ih _ ?_
    unfold lockStep
    cases lookupD locked f with
    | none => exact h
    | some ow =>
      right
      constructor
      · rfl
      · simp

theorem evalEpkg_path {lpps : List (String × LppLevel)}
    {locked : List (String × String)} {p : String} {ls : List String}
    {e : Epkg} {rjs : List String}
    (h : evalEpkg lpps locked p ls = .ok (e, rjs)) : e.path = p := by
  unfold evalEpkg at h
  cases hp : parseEpkg lpps p ls with
  | error m => rw [hp] at h; exact Except.noConfusion h
  | ok r =>
    rw [hp] at h
    have hrp : r.1.path = p := parseEpkg_path (by rw [hp])
    dsimp only at h
    cases hrej : r.1.reject with
    | some msg =>
      rw [hrej] at h
      simp only [Except.ok.injEq, Prod.mk.injEq] at h
      rw [← h.1]
      exact hrp
    | none =>
      rw [hrej] at h
      dsimp only at h
      rw [show lockPass locked r.1 =
        ((lockPass locked r.1).1, (lockPass locked r.1).2) from rfl] at h
      have hlp : (lockPass locked r.1).1.path = r.1.path :=
        lockFold_path _ _ _
      cases hrej2 : (lockPass locked r.1).1.reject with
      | some msg =>
        rw [hrej2] at h
        simp only [Except.ok.injEq, Prod.mk.injEq] at h
        rw [← h.1, hlp]
        exact hrp
      | none =>
        rw [hrej2] at h
        simp only [Except.ok.injEq, Prod.mk.injEq] at h
        rw [← h.1]
        unfold setSec
        cases (lockPass locked r.1).1.pkg_date <;> simp [hlp, hrp]

theorem evalEpkg_rjs_iff {lpps : List (String × LppLevel)}
    {locked : List (String × String)} {p : String} {ls : List String}
    {e : Epkg} {rjs : List String}
    (h : evalEpkg lpps locked p ls = .ok (e, rjs)) :
    (e.reject.isSome = true ↔ rjs ≠ []) := by
  unfold evalEpkg at h
  cases hp : parseEpkg lpps p ls with
  | error m => rw [hp] at h; exact Except.noConfusion h
  | ok r =>
    rw [hp] at h
    dsimp only at h
    cases hrej : r.1.reject with
    | some msg =>
      rw [hrej] at h
      simp only [Except.ok.injEq, Prod.mk.injEq] at h
      rw [← h.1, ← h.2, hrej]
      simp
    | none =>
      rw [hrej] at h
      dsimp only at h
      rw [show lockPass locked r.1 =
        ((lockPass locked r.1).1, (lockPass locked r.1).2) from rfl] at h
      have hflag := @lockFold_flag locked r.1.files (r.1, [])
        (Or.inl ⟨hrej, rfl⟩)
      cases hrej2 : (lockPass locked r.1).1.reject with
      | some msg =>
        rw [hrej2] at h
        simp only [Except.ok.injEq, Prod.mk.injEq] at h
        rw [← h.1, ← h.2, hrej2]
        rcases hflag with ⟨h1, h2⟩ | ⟨h1, h2⟩
        · rw [show (lockPass locked r.1).1.reject =
            ((r.1.files.foldl (lockStep locked) (r.1, [])).1).reject from
            rfl, h1] at hrej2
          exact Option.noConfusion hrej2
        · simpa using h2
      | none =>
        rw [hrej2] at h
        simp only [Except.ok.injEq, Prod.mk.injEq] at h
        rw [← h.1, ← h.2]
        unfold setSec
        cases (lockPass locked r.1).1.pkg_date <;> simp [hrej2]

theorem evalEpkg_clean {lpps : List (String × LppLevel)}
    {locked : List (String × String)} {p : String} {ls : List String}
    {e0 : Epkg} {b : Bool}
    (hp : parseEpkg lpps p ls = .ok (e0, b))
    (hrej : e0.reject = none)
    (hcl : ∀ f ∈ e0.files, lookupD locked f = none) :
    evalEpkg lpps locked p ls = .ok (setSec e0, []) := by
  unfold evalEpkg
  rw [hp]
  dsimp only
  rw [hrej]
  dsimp only
  rw [show lockPass locked e0 = (e0, []) from lockFold_clean (e0, []) hcl]
  dsimp only
  rw [hrej]

theorem evalEpkg_locked {lpps : List (String × LppLevel)}
    {locked : List (String × String)} {p : String} {ls : List String}
    {e0 : Epkg} {b : Bool} {f ow : String}
    (hp : parseEpkg lpps p ls = .ok (e0, b))
    (hrej : e0.reject = none)
    (hf : f ∈ e0.files) (how : lookupD locked f = some ow) :
    ∃ e rjs, evalEpkg lpps locked p ls = .ok (e, rjs) ∧
      (basename p ++ ": installed efix " ++ ow ++ " is locking " ++ f)
        ∈ rjs ∧ e.reject.isSome = true := by
  have hpath : e0.path = p := parseEpkg_path hp
  have hmem := @lockFold_mem locked e0.files f ow e0 [] hf how
  have hflag := @lockFold_flag locked e0.files (e0, [])
    (Or.inl ⟨hrej, rfl⟩)
  unfold evalEpkg
  rw [hp]
  dsimp only
  rw [hrej]
  dsimp only
  rw [show lockPass locked e0 =
    ((lockPass locked e0).1, (lockPass locked e0).2) from rfl]
  have hmem2 : basename e0.path ++ ": installed efix " ++ ow ++
      " is locking " ++ f ∈ (lockPass locked e0).2 := hmem
  rcases hflag with ⟨h1, h2⟩ | ⟨h1, h2⟩
  · have h2b : (lockPass locked e0).2 = [] := h2
    rw [h2b] at hmem2
    simp at hmem2
  · have h1b : (lockPass locked e0).1.reject.isSome = true := h1
    cases hrej2 : (lockPass locked e0).1.reject with
    | none => rw [hrej2] at h1b; simp at h1b
    | some msg =>
      dsimp only
      exact ⟨(lockPass locked e0).1, (lockPass locked e0).2, rfl,
        by rw [← hpath]; exact hmem2, h1b⟩

/-! Helper lemmas on the first loop of check_epkgs. -/


theorem phase1_mono {lpps : List (String × LppLevel)}
    {locked : List (String × String)} {inputs : List (String × List String)}
    {info : List (String × Epkg)} {rej : List String}
    {i' : List (String × Epkg)} {r' : List String}
    (h : phase1Aux lpps locked inputs info rej = .ok (i', r')) :
    ∃ t, r' = rej ++ t := by
  induction inputs generalizing info rej with
  | nil =>
    simp only [phase1Aux, Except.ok.injEq, Prod.mk.injEq] at h
    exact ⟨[], by rw [← h.2, List.append_nil]⟩
  | cons hd rest ih =>
    obtain ⟨p, ls⟩ := hd
    unfold phase1Aux at h
    cases hev : evalEpkg lpps locked p ls with
    | error m => rw [hev] at h; exact Except.noConfusion h
    | ok r =>
      rw [hev] at h
      dsimp only at h
      cases hrej : r.1.reject with
      | some msg =>
        rw [hrej] at h
        obtain ⟨t, ht⟩ := ih h
        exact ⟨r.2 ++ t, by rw [ht, List.append_assoc]⟩
      | none =>
        rw [hrej] at h
        exact ih h

theorem phase1_keys_sub {lpps : List (String × LppLevel)}
    {locked : List (String × String)} {inputs : List (String × List String)}
    {info : List (String × Epkg)} {rej : List String}
    {i' : List (String × Epkg)} {r' : List String}
    (h : phase1Aux lpps locked inputs info rej = .ok (i', r')) :
    ∀ x ∈ keysOf i', x ∈ keysOf info ∨ x ∈ inputs.map Prod.fst := by
  induction inputs generalizing info rej with
  | nil =>
    simp only [phase1Aux, Except.ok.injEq, Prod.mk.injEq] at h
    intro x hx
    exact Or.inl (h.1 ▸ hx)
  | cons hd rest ih =>
    obtain ⟨p, ls⟩ := hd
    unfold phase1Aux at h
    cases hev : evalEpkg lpps locked p ls with
    | error m => rw [hev] at h; exact Except.noConfusion h
    | ok r =>
      rw [hev] at h
      dsimp only at h
      cases hrej : r.1.reject with
      | some msg =>
        rw [hrej] at h
        intro x hx
        rcases ih h x hx with h1 | h1
        · exact Or.inl h1
        · exact Or.inr (by simp [h1])
      | none =>
        rw [hrej] at h
        intro x hx
        rcases ih h x hx with h1 | h1
        · rcases keysOf_dictInsert_sub r.1 h1 with h2 | h2
          · exact Or.inl h2
          · exact Or.inr (by simp [h2])
        · exact Or.inr (by simp [h1])

theorem phase1_keys_nodup {lpps : List (String × LppLevel)}
    {locked : List (String × String)} {inputs : List (String × List String)}
    {info : List (String × Epkg)} {rej : List String}
    {i' : List (String × Epkg)} {r' : List String}
    (h : phase1Aux lpps locked inputs info rej = .ok (i', r'))
    (hn : (keysOf info).Nodup) : (keysOf i').Nodup := by
  induction inputs generalizing info rej with
  | nil =>
    simp only [phase1Aux, Except.ok.injEq, Prod.mk.injEq] at h
    exact h.1 ▸ hn
  | cons hd rest ih =>
    obtain ⟨p, ls⟩ := hd
    unfold phase1Aux at h
    cases hev : evalEpkg lpps locked p ls with
    | error m => rw [hev] at h; exact Except.noConfusion h
    | ok r =>
      rw [hev] at h
      dsimp only at h
      cases hrej : r.1.reject with
      | some msg =>
        rw [hrej] at h
        exact ih h hn
      | none =>
        rw [hrej] at h
        exact ih h (nodup_keysOf_dictInsert r.1 hn)

theorem phase1_count {lpps : List (String × LppLevel)}
    {locked : List (String × String)} {inputs : List (String × List String)}
    {info : List (String × Epkg)} {rej : List String}
    {i' : List (String × Epkg)} {r' : List String}
    (h : phase1Aux lpps locked inputs info rej = .ok (i', r'))
    (hnd : (inputs.map Prod.fst).Nodup)
    (hfresh : ∀ p ∈ inputs.map Prod.fst, p ∉ keysOf info) :
    info.length + rej.length + inputs.length ≤ i'.length + r'.length := by
  induction inputs generalizing info rej with
  | nil =>
    simp only [phase1Aux, Except.ok.injEq, Prod.mk.injEq] at h
    simp [← h.1, ← h.2]
  | cons hd rest ih =>
    obtain ⟨p, ls⟩ := hd
    have hnd2 : (rest.map Prod.fst).Nodup := (List.nodup_cons.mp hnd).2
    have hp : p ∉ rest.map Prod.fst := by
      simpa using (List.nodup_cons.mp hnd).1
    unfold phase1Aux at h
    cases hev : evalEpkg lpps locked p ls with
    | error m => rw [hev] at h; exact Except.noConfusion h
    | ok r =>
      rw [hev] at h
      dsimp only at h
      cases hrej : r.1.reject with
      | some msg =>
        rw [hrej] at h
        have hne : r.2 ≠ [] := (evalEpkg_rjs_iff (by
          rw [hev, show r = (r.1, r.2) from rfl])).mp (by simp [hrej])
        have h1 : 1 ≤ r.2.length := by
          cases hr2 : r.2 with
          | nil => exact absurd hr2 hne
          | cons a t => simp
        have := ih h hnd2 (fun q hq => hfresh q (by simp [hq]))
        simp only [List.length_append] at this
        simp only [List.length_cons]
        omega
      | none =>
        rw [hrej] at h
        have hfp : p ∉ keysOf info := hfresh p (by simp)
        have hlen : (dictInsert info p r.1).length = info.length + 1 := by
          rw [dictInsert_of_not_mem r.1 hfp]
          simp
        have hfresh2 : ∀ q ∈ rest.map Prod.fst,
            q ∉ keysOf (dictInsert info p r.1) := by
          intro q hq hmem
          rcases keysOf_dictInsert_sub r.1 hmem with h2 | h2
          · exact hfresh q (by simp [hq]) h2
          · exact hp (h2 ▸ hq)
        have := ih h hnd2 hfresh2
        rw [hlen] at this
        simp only [List.length_cons]
        omega

theorem phase1_rej_mem {lpps : List (String × LppLevel)}
    {locked : List (String × String)} {inputs : List (String × List String)}
    {info : List (String × Epkg)} {rej : List String}
    {i' : List (String × Epkg)} {r' : List String}
    {p : String} {ls : List String} {e : Epkg} {rjs : List String}
    (h : phase1Aux lpps locked inputs info rej = .ok (i', r'))
    (hin : (p, ls) ∈ inputs)
    (hev : evalEpkg lpps locked p ls = .ok (e, rjs)) :
    ∀ x ∈ rjs, x ∈ r' := by
  induction inputs generalizing info rej with
  | nil => simp at hin
  | cons hd rest ih =>
    obtain ⟨q, ls2⟩ := hd
    unfold phase1Aux at h
    rcases List.mem_cons.mp hin with h1 | h1
    · injection h1 with hq hls
      subst hq
      subst hls
      rw [hev] at h
      dsimp only at h
      cases hrej : e.reject with
      | some msg =>
        rw [hrej] at h
        obtain ⟨t, ht⟩ := phase1_mono h
        intro x hx
        rw [ht]
        simp [hx]
      | none =>
        have hnil : rjs = [] := by
          by_contra hne
          have := (evalEpkg_rjs_iff hev).mpr hne
          rw [hrej] at this
          simp at this
        intro x hx
        rw [hnil] at hx
        simp at hx
    · cases hev2 : evalEpkg lpps locked q ls2 with
      | error m => rw [hev2] at h; exact Except.noConfusion h
      | ok r =>
        rw [hev2] at h
        dsimp only at h
        cases hrej : r.1.reject with
        | some msg =>
          rw [hrej] at h
          exact ih h h1
        | none =>
          rw [hrej] at h
          exact ih h h1

theorem phase1_not_key {lpps : List (String × LppLevel)}
    {locked : List (String × String)} {inputs : List (String × List String)}
    {info : List (String × Epkg)} {rej : List String}
    {i' : List (String × Epkg)} {r' : List String}
    {p : String} {ls : List String} {e : Epkg} {rjs : List String}
    (h : phase1Aux lpps locked inputs info rej = .ok (i', r'))
    (hnd : (inputs.map Prod.fst).Nodup)
    (hfp : p ∉ keysOf info)
    (hin : (p, ls) ∈ inputs)
    (hev : evalEpkg lpps locked p ls = .ok (e, rjs))
    (hrej : e.reject.isSome = true) : p ∉ keysOf i' := by
  induction inputs generalizing info rej with
  | nil => simp at hin
  | cons hd rest ih =>
    obtain ⟨q, ls2⟩ := hd
    have hnd2 : (rest.map Prod.fst).Nodup := (List.nodup_cons.mp hnd).2
    have hqr : q ∉ rest.map Prod.fst := by
      simpa using (List.nodup_cons.mp hnd).1
    unfold phase1Aux at h
    rcases List.mem_cons.mp hin with h1 | h1
    · injection h1 with hq hls
      subst hq
      subst hls
      rw [hev] at h
      dsimp only at h
      cases hrej2 : e.reject with
      | none => rw [hrej2] at hrej; simp at hrej
      | some msg =>
        rw [hrej2] at h
        intro hmem
        rcases phase1_keys_sub h p hmem with h2 | h2
        · exact hfp h2
        · exact hqr h2
    · cases hev2 : evalEpkg lpps locked q ls2 with
      | error m => rw [hev2] at h; exact Except.noConfusion h
      | ok r =>
        rw [hev2] at h
        dsimp only at h
        have hpq : p ≠ q := by
          intro hc
          have : p ∈ rest.map Prod.fst := by
            simpa using ⟨ls, h1⟩
          exact hqr (hc ▸ this)
        cases hrej2 : r.1.reject with
        | some msg =>
          rw [hrej2] at h
          exact ih h hnd2 hfp h1
        | none =>
          rw [hrej2] at h
          refine ih h hnd2 ?_ h1
          intro hmem
          rcases keysOf_dictInsert_sub r.1 hmem with h2 | h2
          · exact hfp h2
          · exact hpq h2

/-! Helper lemmas on the interlock-exclusion walk. -/


theorem all_not_contains_iff {fs locks : List String} :
    (fs.all (fun f => !locks.contains f) = true) ↔ ∀ f ∈ fs, f ∉ locks := by
  rw [List.all_eq_true]
  constructor
  · intro h f hf hmem
    have h1 := h f hf
    rw [Bool.not_eq_true'] at h1
    have h2 : locks.contains f = true := List.elem_iff.mpr hmem
    rw [h1] at h2
    exact Bool.noConfusion h2
  · intro h f hf
    rw [Bool.not_eq_true']
    by_contra hc
    have : locks.contains f = true := by
      cases hcc : locks.contains f
      · exact absurd hcc hc
      · rfl
    exact h f hf (List.elem_iff.mp this)

theorem greedy_sublist (l : List (String × Epkg)) (locks : List String) :
    (greedy l locks).1.Sublist l := by
  induction l generalizing locks with
  | nil => simp [greedy]
  | cons a rest ih =>
    obtain ⟨p, e⟩ := a
    unfold greedy
    by_cases hc : e.files.all (fun f => !locks.contains f) = true
    · rw [if_pos hc]
      rw [show greedy rest (locks ++ e.files) =
        ((greedy rest (locks ++ e.files)).1,
         (greedy rest (locks ++ e.files)).2) from rfl]
      exact List.Sublist.cons₂ (p, e) (ih _)
    · rw [if_neg hc]
      rw [show greedy rest locks =
        ((greedy rest locks).1, (greedy rest locks).2) from rfl]
      exact List.Sublist.cons (p, e) (ih _)

theorem greedy_length (l : List (String × Epkg)) (locks : List String) :
    (greedy l locks).1.length + (greedy l locks).2.length = l.length := by
  induction l generalizing locks with
  | nil => simp [greedy]
  | cons a rest ih =>
    obtain ⟨p, e⟩ := a
    unfold greedy
    by_cases hc : e.files.all (fun f => !locks.contains f) = true
    · rw [if_pos hc]
      rw [show greedy rest (locks ++ e.files) =
        ((greedy rest (locks ++ e.files)).1,
         (greedy rest (locks ++ e.files)).2) from rfl]
      have := ih (locks ++ e.files)
      simp only [List.length_cons]
      omega
    · rw [if_neg hc]
      rw [show greedy rest locks =
        ((greedy rest locks).1, (greedy rest locks).2) from rfl]
      have := ih locks
      simp only [List.length_cons]
      omega

theorem greedy_disjoint (l : List (String × Epkg)) (locks : List String) :
    ∀ x ∈ (greedy l locks).1, ∀ f ∈ x.2.files, f ∉ locks := by
  induction l generalizing locks with
  | nil => simp [greedy]
  | cons a rest ih =>
    obtain ⟨p, e⟩ := a
    unfold greedy
    by_cases hc : e.files.all (fun f => !locks.contains f) = true
    · rw [if_pos hc]
      rw [show greedy rest (locks ++ e.files) =
        ((greedy rest (locks ++ e.files)).1,
         (greedy rest (locks ++ e.files)).2) from rfl]
      intro x hx f hf
      rcases List.mem_cons.mp hx with h1 | h1
      · subst h1
        exact (all_not_contains_iff.mp hc) f hf
      · have := ih (locks ++ e.files) x h1 f hf
        intro hmem
        exact this (by simp [hmem])
    · rw [if_neg hc]
      rw [show greedy rest locks =
        ((greedy rest locks).1, (greedy rest locks).2) from rfl]
      exact ih locks

theorem greedy_pairwise (l : List (String × Epkg)) (locks : List String) :
    (greedy l locks).1.Pairwise
      (fun a b => ∀ f ∈ b.2.files, f ∉ a.2.files) := by
  induction l generalizing locks with
  | nil => simp [greedy]
  | cons a rest ih =>
    obtain ⟨p, e⟩ := a
    unfold greedy
    by_cases hc : e.files.all (fun f => !locks.contains f) = true
    · rw [if_pos hc]
      rw [show greedy rest (locks ++ e.files) =
        ((greedy rest (locks ++ e.files)).1,
         (greedy rest (locks ++ e.files)).2) from rfl]
      refine List.Pairwise.cons ?_ (ih _)
      intro b hb f hf
      have := greedy_disjoint rest (locks ++ e.files) b hb f hf
      intro hmem
      exact this (by simp [hmem])
    · rw [if_neg hc]
      rw [show greedy rest locks =
        ((greedy rest locks).1, (greedy rest locks).2) from rfl]
      exact ih locks

/-! Helper lemmas on the aggregate file-lock map. -/


theorem lookup_lockfold {lbl k : String} (files : List String)
    (acc : List (String × String)) :
    lookupD (files.foldl
      (fun a f => if a.any (fun q => q.1 = f) then a else a ++ [(f, lbl)])
      acc) k =
    match lookupD acc k with
    | some v => some v
    | none => if files.contains k then some lbl else none := by
  induction files generalizing acc with
  | nil => cases hl : lookupD acc k <;> simp [hl]
  | cons f fs ih =>
    rw [List.foldl_cons]
    by_cases hany : acc.any (fun q => q.1 = f) = true
    · rw [if_pos hany]
      rw [ih acc]
      cases hl : lookupD acc k with
      | some v => rfl
      | none =>
        have hkf : k ≠ f := by
          intro hc
          subst hc
          have hmem : k ∈ keysOf acc := isKey_iff.mp hany
          exact (lookupD_none_iff.mp hl) hmem
        dsimp only
        rw [List.contains_cons]
        have : (k == f) = false := by
          simp [hkf]
        rw [this]
        simp
    · rw [if_neg hany]
      rw [ih (acc ++ [(f, lbl)])]
      rw [lookupD_app]
      cases hl : lookupD acc k with
      | some v => rfl
      | none =>
        dsimp only
        by_cases hkf : f = k
        · subst hkf
          rw [show lookupD [(f, lbl)] f = some lbl by simp [lookupD]]
          dsimp only
          rw [List.contains_cons]
          simp
        · rw [show lookupD [(f, lbl)] k = none by simp [lookupD, hkf]]
          dsimp only
          rw [List.contains_cons]
          have : (k == f) = false := by
            simp
            intro hc
            exact hkf hc.symm
          rw [this]
          simp

theorem lookup_buildLocked_aux {k : String}
    (efixes : List (String × EfixEntry)) (acc : List (String × String)) :
    lookupD (efixes.foldl
      (fun acc p => p.2.files.foldl
        (fun a f => if a.any (fun q => q.1 = f) then a else a ++ [(f, p.1)])
        acc)
      acc) k =
    match lookupD acc k with
    | some v => some v
    | none => firstOwner efixes k := by
  induction efixes generalizing acc with
  | nil => cases hl : lookupD acc k <;> simp [hl, firstOwner]
  | cons p rest ih =>
    rw [List.foldl_cons]
    rw [ih]
    rw [lookup_lockfold p.2.files acc]
    cases hl : lookupD acc k with
    | some v => rfl
    | none =>
      dsimp only
      by_cases hc : p.2.files.contains k = true
      · rw [if_pos hc]
        rw [show firstOwner (p :: rest) k =
          (if p.2.files.contains k then some p.1 else firstOwner rest k)
          from rfl]
        rw [if_pos hc]
      · rw [if_neg hc]
        rw [show firstOwner (p :: rest) k =
          (if p.2.files.contains k then some p.1 else firstOwner rest k)
          from rfl]
        rw [if_neg hc]

theorem lookup_buildLocked {k : String} (efixes : List (String × EfixEntry)) :
    lookupD (buildLockedFiles efixes) k = firstOwner efixes k := by
  unfold buildLockedFiles
  rw [lookup_buildLocked_aux efixes []]
  rfl

/-! Helper lemmas decomposing a successful check_epkgs run. -/


theorem check_shape {inputs : List (String × List String)}
    {lpps : List (String × LppLevel)} {efixes : List (String × EfixEntry)}
    {acc rej : List String}
    (h : check_epkgs inputs lpps efixes = .ok (acc, rej)) :
    ∃ info rej1,
      phase1Aux lpps (buildLockedFiles efixes) inputs [] [] =
        .ok (info, rej1) ∧
      acc = (greedy (List.insertionSort secGe info) []).1.map Prod.fst ∧
      rej = List.insertionSort strLe
        (rej1 ++ (greedy (List.insertionSort secGe info) []).2) := by
  unfold check_epkgs at h
  cases hp : phase1Aux lpps (buildLockedFiles efixes) inputs [] [] with
  | error m => rw [hp] at h; exact Except.noConfusion h
  | ok pr =>
    rw [hp] at h
    dsimp only at h
    rw [show greedy (List.insertionSort secGe pr.1) [] =
      ((greedy (List.insertionSort secGe pr.1) []).1,
       (greedy (List.insertionSort secGe pr.1) []).2) from rfl] at h
    simp only [Except.ok.injEq, Prod.mk.injEq] at h
    exact ⟨pr.1, pr.2, rfl, h.1.symm, h.2.symm⟩

theorem acc_mem_keysOf_info {info : List (String × Epkg)} {x : String}
    (hx : x ∈ (greedy (List.insertionSort secGe info) []).1.map Prod.fst) :
    x ∈ keysOf info := by
  have hsub := greedy_sublist (List.insertionSort secGe info) []
  have hsub2 := List.Sublist.map Prod.fst hsub
  have hx2 : x ∈ (List.insertionSort secGe info).map Prod.fst :=
    hsub2.subset hx
  have hperm : ((List.insertionSort secGe info).map Prod.fst).Perm
      (info.map Prod.fst) := (List.perm_insertionSort secGe info).map _
  exact hperm.mem_iff.mp hx2

theorem acc_pair_of_mem {info : List (String × Epkg)} {x : String}
    (hn : (keysOf info).Nodup)
    (hx : x ∈ (greedy (List.insertionSort secGe info) []).1.map Prod.fst) :
    ∃ e, (x, e) ∈ (greedy (List.insertionSort secGe info) []).1 ∧
      lookupD info x = some e := by
  rw [List.mem_map] at hx
  obtain ⟨pe, hpe, hfst⟩ := hx
  refine ⟨pe.2, by rw [← hfst]; simpa using hpe, ?_⟩
  have hmem : pe ∈ List.insertionSort secGe info :=
    (greedy_sublist _ _).subset hpe
  have hmem2 : pe ∈ info :=
    (List.perm_insertionSort secGe info).mem_iff.mp hmem
  rw [← hfst]
  exact lookupD_of_mem_nodup hn (by rw [show pe = (pe.1, pe.2) from rfl] at hmem2; exact hmem2)

/-! Claim C1. -/


/-- C1 (amended): for candidate lists with distinct source paths, a
successful run of check_epkgs returns an accept list of distinct input
paths, and accept and reject together cover every candidate at least
once (a candidate whose files are locked by several installed efixes
contributes one reject entry per locking file, so the two lists need not
partition the input exactly once). -/
theorem claim_C1 {inputs : List (String × List String)}
    {lpps : List (String × LppLevel)} {efixes : List (String × EfixEntry)}
    {acc rej : List String}
    (hnd : (inputs.map Prod.fst).Nodup)
    (h : check_epkgs inputs lpps efixes = .ok (acc, rej)) :
    acc.Nodup ∧ (∀ p ∈ acc, p ∈ inputs.map Prod.fst) ∧
      inputs.length ≤ acc.length + rej.length := by
  obtain ⟨info, rej1, hp, hacc, hrej⟩ := check_shape h
  have hnk : (keysOf info).Nodup := phase1_keys_nodup hp (by simp [keysOf])
  refine ⟨?_, ?_, ?_⟩
  · rw [hacc]
    have hperm : ((List.insertionSort secGe info).map Prod.fst).Perm
        (info.map Prod.fst) := (List.perm_insertionSort secGe info).map _
    have hsn : ((List.insertionSort secGe info).map Prod.fst).Nodup :=
      (hperm.nodup_iff).mpr hnk
    exact List.Nodup.sublist ((greedy_sublist _ _).map Prod.fst) hsn
  · intro p hp2
    rw [hacc] at hp2
    have hmem := acc_mem_keysOf_info hp2
    rcases phase1_keys_sub hp p hmem with h1 | h1
    · simp [keysOf] at h1
    · exact h1
  · have hcount := phase1_count hp hnd (by simp [keysOf])
    have hg := greedy_length (List.insertionSort secGe info) []
    have hsl : (List.insertionSort secGe info).length = info.length :=
      (List.perm_insertionSort secGe info).length_eq
    have hrl : rej.length = rej1.length +
        (greedy (List.insertionSort secGe info) []).2.length := by
      rw [hrej, (List.perm_insertionSort strLe _).length_eq]
      simp
    have hal : acc.length =
        (greedy (List.insertionSort secGe info) []).1.length := by
      rw [hacc]
      simp
    simp only [List.length_nil, Nat.zero_add] at hcount
    omega

/-- C1 witness: a two-candidate run where both are accepted. -/
theorem claim_C1_witness :
    (["/t/A.epkg", "/t/C.epkg"] : List String).Nodup ∧
    (∀ p ∈ (["/t/A.epkg", "/t/C.epkg"] : List String),
      p ∈ [("/t/A.epkg", wLinesA), ("/t/C.epkg", wLinesC)].map Prod.fst) ∧
    [("/t/A.epkg", wLinesA), ("/t/C.epkg", wLinesC)].length ≤
      (["/t/A.epkg", "/t/C.epkg"] : List String).length +
      ([] : List String).length :=
  @claim_C1 [("/t/A.epkg", wLinesA), ("/t/C.epkg", wLinesC)] [] []
    ["/t/A.epkg", "/t/C.epkg"] [] (by decide) (by rfl)

/-- C1 counterexample: one candidate whose two files are both locked by
an installed efix generates two reject entries, so accept and reject do
not cover the one-candidate input exactly once. -/
theorem claim_C1_counterexample :
    check_epkgs [("/r/c1.epkg",
        ["   LOCATION:      /a", "   LOCATION:      /b"])] []
      [("E1", { files := ["/a", "/b"], packages := [] })] =
      .ok ([], ["c1.epkg: installed efix E1 is locking /a",
                "c1.epkg: installed efix E1 is locking /b"]) ∧
    [("/r/c1.epkg",
        ["   LOCATION:      /a", "   LOCATION:      /b"])].length = 1 ∧
    ¬ (([] : List String).length +
        ["c1.epkg: installed efix E1 is locking /a",
         "c1.epkg: installed efix E1 is locking /b"].length = 1) :=
  ⟨rfl, rfl, by decide⟩

/-! Claim C2. -/


/-- C2: in any successful run of check_epkgs, two distinct paths on the
accept list have disjoint files sets (their records looked up in the
epkgs_info dict the run built). -/
theorem claim_C2 {inputs : List (String × List String)}
    {lpps : List (String × LppLevel)} {efixes : List (String × EfixEntry)}
    {acc rej : List String} {p q : String} {e1 e2 : Epkg}
    (h : check_epkgs inputs lpps efixes = .ok (acc, rej))
    (hp : p ∈ acc) (hq : q ∈ acc) (hne : p ≠ q)
    (he1 : lookupD (checkInfo inputs lpps efixes) p = some e1)
    (he2 : lookupD (checkInfo inputs lpps efixes) q = some e2) :
    ∀ f ∈ e1.files, f ∉ e2.files := by
  obtain ⟨info, rej1, hph, hacc, hrej⟩ := check_shape h
  have hinfo : checkInfo inputs lpps efixes = info := by
    unfold checkInfo
    rw [hph]
  have hnk : (keysOf info).Nodup := phase1_keys_nodup hph (by simp [keysOf])
  rw [hacc] at hp hq
  obtain ⟨e1', hpair1, hl1⟩ := acc_pair_of_mem hnk hp
  obtain ⟨e2', hpair2, hl2⟩ := acc_pair_of_mem hnk hq
  rw [hinfo] at he1 he2
  have heq1 : e1' = e1 := by
    rw [hl1] at he1
    injection he1
  have heq2 : e2' = e2 := by
    rw [hl2] at he2
    injection he2
  have hpw := greedy_pairwise (List.insertionSort secGe info) []
  have hsym : Symmetric
      (fun (a b : String × Epkg) => ∀ f ∈ b.2.files, f ∉ a.2.files) := by
    intro a b hab f hf hfb
    exact hab f hfb hf
  have hne2 : (q, e2') ≠ (p, e1') := by
    intro hc
    injection hc with hc1 hc2
    exact hne hc1.symm
  have hres := hpw.forall hsym hpair2 hpair1 hne2
  rw [← heq1, ← heq2]
  exact hres

/-- C2 witness: in a concrete run with two accepted candidates, the
first accepted candidate's file is absent from the second accepted
candidate's files set. -/
theorem claim_C2_witness : "/usr/sbin/tcpdump" ∉ wEpkgC.files :=
  @claim_C2 [("/t/A.epkg", wLinesA), ("/t/C.epkg", wLinesC)] [] []
    ["/t/A.epkg", "/t/C.epkg"] [] "/t/A.epkg" "/t/C.epkg" wEpkgA wEpkgC
    (by rfl) (by decide) (by decide) (by decide) (by rfl) (by rfl)
    "/usr/sbin/tcpdump" (by decide)

/-! Claim C3. -/


/-- C3: when exactly two candidates are pending (both parse cleanly and
neither is rejected for any other reason), the strictly newer one (by
packaging epoch) is accepted and the older one is rejected with the
`locked by previous efix to install` reason whenever their files
overlap — whichever order they arrive in. -/
theorem claim_C3 {lpps : List (String × LppLevel)}
    {efixes : List (String × EfixEntry)} {pA pB : String}
    {lsA lsB : List String} {eA eB : Epkg}
    (hA : evalEpkg lpps (buildLockedFiles efixes) pA lsA = .ok (eA, []))
    (hB : evalEpkg lpps (buildLockedFiles efixes) pB lsB = .ok (eB, []))
    (hsec : eB.sec_from_epoch < eA.sec_from_epoch)
    (hover : ∃ f, f ∈ eA.files ∧ f ∈ eB.files)
    (hne : pA ≠ pB) :
    check_epkgs [(pA, lsA), (pB, lsB)] lpps efixes =
      .ok ([pA], [basename pB ++ ": locked by previous efix to install"]) ∧
    check_epkgs [(pB, lsB), (pA, lsA)] lpps efixes =
      .ok ([pA], [basename pB ++ ": locked by previous efix to install"]) := by
  obtain ⟨f0, hf0A, hf0B⟩ := hover
  have hrA : eA.reject = none := by
    have hiff := evalEpkg_rjs_iff hA
    cases hr : eA.reject with
    | none => rfl
    | some a =>
      have hcontra : ([] : List String) ≠ [] := hiff.mp (by rw [hr]; rfl)
      exact absurd rfl hcontra
  have hrB : eB.reject = none := by
    have hiff := evalEpkg_rjs_iff hB
    cases hr : eB.reject with
    | none => rfl
    | some a =>
      have hcontra : ([] : List String) ≠ [] := hiff.mp (by rw [hr]; rfl)
      exact absurd rfl hcontra
  have hd1 : dictInsert ([] : List (String × Epkg)) pA eA = [(pA, eA)] := rfl
  have hd1' : dictInsert ([] : List (String × Epkg)) pB eB = [(pB, eB)] := rfl
  have hd2 : dictInsert [(pA, eA)] pB eB = [(pA, eA), (pB, eB)] := by
    rw [dictInsert_of_not_mem eB
      (by simp [keysOf]; exact fun hc => hne hc.symm)]
    rfl
  have hd2' : dictInsert [(pB, eB)] pA eA = [(pB, eB), (pA, eA)] := by
    rw [dictInsert_of_not_mem eA (by simp [keysOf]; exact hne)]
    rfl
  have h1 : phase1Aux lpps (buildLockedFiles efixes)
      [(pA, lsA), (pB, lsB)] [] [] = .ok ([(pA, eA), (pB, eB)], []) := by
    unfold phase1Aux
    rw [hA]
    dsimp only
    rw [hrA]
    dsimp only
    rw [hd1]
    unfold phase1Aux
    rw [hB]
    dsimp only
    rw [hrB]
    dsimp only
    rw [hd2]
    rfl
  have h1' : phase1Aux lpps (buildLockedFiles efixes)
      [(pB, lsB), (pA, lsA)] [] [] = .ok ([(pB, eB), (pA, eA)], []) := by
    unfold phase1Aux
    rw [hB]
    dsimp only
    rw [hrB]
    dsimp only
    rw [hd1']
    unfold phase1Aux
    rw [hA]
    dsimp only
    rw [hrA]
    dsimp only
    rw [hd2']
    rfl
  have hs1 : List.insertionSort secGe [(pA, eA), (pB, eB)] =
      [(pA, eA), (pB, eB)] := by
    rw [show List.insertionSort secGe [(pA, eA), (pB, eB)] =
      List.orderedInsert secGe (pA, eA) [(pB, eB)] from rfl]
    exact List.orderedInsert_of_le secGe []
      (show secGe (pA, eA) (pB, eB) from le_of_lt hsec)
  have hs2 : List.insertionSort secGe [(pB, eB), (pA, eA)] =
      [(pA, eA), (pB, eB)] := by
    rw [show List.insertionSort secGe [(pB, eB), (pA, eA)] =
      List.orderedInsert secGe (pB, eB) [(pA, eA)] from rfl]
    have hnle : ¬ secGe (pB, eB) (pA, eA) := not_le.mpr hsec
    rw [show List.orderedInsert secGe (pB, eB) [(pA, eA)] =
      (if secGe (pB, eB) (pA, eA) then (pB, eB) :: [(pA, eA)]
       else (pA, eA) :: List.orderedInsert secGe (pB, eB) []) from rfl]
    rw [if_neg hnle]
    rfl
  have hg : greedy [(pA, eA), (pB, eB)] [] =
      ([(pA, eA)], [basename eB.path ++
        ": locked by previous efix to install"]) := by
    unfold greedy
    rw [if_pos (all_not_contains_iff.mpr (by simp))]
    unfold greedy
    have hc2 : ¬ (eB.files.all
        (fun f => !(([] ++ eA.files).contains f)) = true) := by
      intro hall
      exact (all_not_contains_iff.mp hall) f0 hf0B (by simp [hf0A])
    rw [if_neg hc2]
    rfl
  have hbase : basename eB.path = basename pB := by
    rw [evalEpkg_path hB]
  constructor
  · unfold check_epkgs
    rw [h1]
    dsimp only
    rw [hs1, hg]
    dsimp only
    rw [hbase]
    rfl
  · unfold check_epkgs
    rw [h1']
    dsimp only
    rw [hs2, hg]
    dsimp only
    rw [hbase]
    rfl

/-- C3 witness: the spec's tcpdump scenario, in both input orders. -/
theorem claim_C3_witness :
    check_epkgs [("/t/A.epkg", wLinesA), ("/t/B.epkg", wLinesB)] [] [] =
      .ok (["/t/A.epkg"],
        ["B.epkg: locked by previous efix to install"]) ∧
    check_epkgs [("/t/B.epkg", wLinesB), ("/t/A.epkg", wLinesA)] [] [] =
      .ok (["/t/A.epkg"],
        ["B.epkg: locked by previous efix to install"]) :=
  @claim_C3 [] [] "/t/A.epkg" "/t/B.epkg" wLinesA wLinesB wEpkgA wEpkgB
    (by rfl) (by rfl) (by decide)
    ⟨"/usr/sbin/tcpdump", by decide, by decide⟩ (by decide)

/-! Claim C4. -/


/-- C4 (amended): the accept list is sorted by the numeric sort key
sec_from_epoch in descending order.  An absent or unparseable packaging
time is the sentinel -1, so such candidates sort after every candidate
whose epoch key exceeds -1 (all post-1970 dates) but before a candidate
whose packaging date converts to an epoch below -1 (a pre-1970 date). -/
theorem claim_C4 {inputs : List (String × List String)}
    {lpps : List (String × LppLevel)} {efixes : List (String × EfixEntry)}
    {acc rej : List String}
    (h : check_epkgs inputs lpps efixes = .ok (acc, rej)) :
    acc.Pairwise (fun p q => secOf (checkInfo inputs lpps efixes) q ≤
      secOf (checkInfo inputs lpps efixes) p) := by
  obtain ⟨info, rej1, hph, hacc, hrej⟩ := check_shape h
  have hinfo : checkInfo inputs lpps efixes = info := by
    unfold checkInfo
    rw [hph]
  have hnk : (keysOf info).Nodup := phase1_keys_nodup hph (by simp [keysOf])
  rw [hinfo, hacc, List.pairwise_map]
  have hsorted : (List.insertionSort secGe info).Pairwise secGe :=
    List.sorted_insertionSort secGe info
  have hkept : (greedy (List.insertionSort secGe info) []).1.Pairwise secGe :=
    List.Pairwise.sublist (greedy_sublist _ _) hsorted
  refine hkept.imp_of_mem ?_
  intro a b ha hb hr
  have hma : a ∈ info := (List.perm_insertionSort secGe info).mem_iff.mp
    ((greedy_sublist _ _).subset ha)
  have hmb : b ∈ info := (List.perm_insertionSort secGe info).mem_iff.mp
    ((greedy_sublist _ _).subset hb)
  have hla : lookupD info a.1 = some a.2 :=
    lookupD_of_mem_nodup hnk (by rw [show a = (a.1, a.2) from rfl] at hma; exact hma)
  have hlb : lookupD info b.1 = some b.2 :=
    lookupD_of_mem_nodup hnk (by rw [show b = (b.1, b.2) from rfl] at hmb; exact hmb)
  unfold secOf
  rw [hla, hlb]
  exact hr

/-- C4 witness: a concrete run whose accept list the theorem shows is
descending by epoch key. -/
theorem claim_C4_witness :
    (["/t/A.epkg", "/t/C.epkg"] : List String).Pairwise (fun p q =>
      secOf (checkInfo [("/t/A.epkg", wLinesA), ("/t/C.epkg", wLinesC)]
        [] []) q ≤
      secOf (checkInfo [("/t/A.epkg", wLinesA), ("/t/C.epkg", wLinesC)]
        [] []) p) :=
  @claim_C4 [("/t/A.epkg", wLinesA), ("/t/C.epkg", wLinesC)] [] []
    ["/t/A.epkg", "/t/C.epkg"] [] (by rfl)

/-- C4 counterexample: a candidate with no packaging date (sentinel -1)
is placed before a candidate whose packaging date parses to epoch -3600
(1970-01-01 00:00:00 CET), so an unknown timestamp does not sort after
every known one. -/
theorem claim_C4_counterexample :
    check_epkgs [("/r/u.epkg", ["LABEL:            U1"]),
        ("/r/k.epkg", ["PACKAGING DATE:   Thu Jan  1 00:00:00 CET 1970"])]
      [] [] = .ok (["/r/u.epkg", "/r/k.epkg"], []) ∧
    to_utc_epoch "Thu Jan  1 00:00:00 CET 1970" = (-3600, "") ∧
    secOf (checkInfo [("/r/u.epkg", ["LABEL:            U1"]),
        ("/r/k.epkg", ["PACKAGING DATE:   Thu Jan  1 00:00:00 CET 1970"])]
      [] []) "/r/u.epkg" = -1 ∧
    secOf (checkInfo [("/r/u.epkg", ["LABEL:            U1"]),
        ("/r/k.epkg", ["PACKAGING DATE:   Thu Jan  1 00:00:00 CET 1970"])]
      [] []) "/r/k.epkg" = -3600 :=
  ⟨rfl, rfl, rfl, rfl⟩

/-! Claims C5 and C6. -/


/-- C5: when the parsing loop reaches (with no earlier rejection) a
prerequisite line whose component is absent from the installed-level
table, the candidate is rejected on the spot with the exact
`prerequisite missing` reason, the remaining metadata lines are never
looked at, and in any batch with distinct paths that contains this
candidate the reason reaches the reject list and the candidate's path
never appears in the accept list. -/
theorem claim_C5 {lpps : List (String × LppLevel)} {path : String}
    {pre : List String} {line : String} {post : List String} {s : Epkg}
    {pr minl maxl : String}
    (hpre : parseEpkg lpps path pre = .ok (s, false))
    (hpr : matchPrereq (pyRstripL line.toList) = some (pr, minl, maxl))
    (hplus : (pyRstripL line.toList).head? ≠ some '+')
    (hmiss : lookupD lpps pr = none) :
    parseEpkg lpps path (pre ++ line :: post) =
      .ok ({ s with
              prereq := dictInsert s.prereq pr (minl, maxl),
              reject := some (basename path ++
                ": prerequisite missing: " ++ pr) }, true) ∧
    parseEpkg lpps path (pre ++ line :: post) =
      parseEpkg lpps path (pre ++ [line]) ∧
    ∀ inputs efixes acc rej,
      ((path, pre ++ line :: post) ∈ inputs) →
      (inputs.map Prod.fst).Nodup →
      check_epkgs inputs lpps efixes = .ok (acc, rej) →
      (basename path ++ ": prerequisite missing: " ++ pr) ∈ rej ∧
        path ∉ acc := by
  have hparse := @parseEpkg_stops_missing lpps path pre line post s
    pr minl maxl hpre hpr hplus hmiss
  have hparse1 := @parseEpkg_stops_missing lpps path pre line [] s
    pr minl maxl hpre hpr hplus hmiss
  refine ⟨hparse, by rw [hparse, hparse1], ?_⟩
  intro inputs efixes acc rej hin hnd hch
  have hev : evalEpkg lpps (buildLockedFiles efixes) path
      (pre ++ line :: post) =
      .ok ({ s with
              prereq := dictInsert s.prereq pr (minl, maxl),
              reject := some (basename path ++
                ": prerequisite missing: " ++ pr) },
        [basename path ++ ": prerequisite missing: " ++ pr]) := by
    unfold evalEpkg
    rw [hparse]
  obtain ⟨info, rej1, hph, hacc, hrej⟩ := check_shape hch
  constructor
  · have hall := phase1_rej_mem hph hin hev
    have h1 : (basename path ++ ": prerequisite missing: " ++ pr) ∈ rej1 :=
      hall _ (by simp)
    rw [hrej]
    rw [List.mem_insertionSort]
    simp [h1]
  · have hnokey := phase1_not_key hph hnd (by simp [keysOf]) hin hev rfl
    intro hmem
    rw [hacc] at hmem
    exact hnokey (acc_mem_keysOf_info hmem)

/-- C5 witness: a concrete candidate whose prerequisite component is
absent from the table. -/
theorem claim_C5_witness :
    parseEpkg wLpps5 "/r/c5.epkg" (["LABEL:            T1"] ++
      "ghostcomp 1.0 2.0" :: ["   LOCATION:      /x"]) =
      .ok ({ wS5 with
              prereq := dictInsert wS5.prereq "ghostcomp" ("1.0", "2.0"),
              reject := some "c5.epkg: prerequisite missing: ghostcomp" },
        true) ∧
    parseEpkg wLpps5 "/r/c5.epkg" (["LABEL:            T1"] ++
      "ghostcomp 1.0 2.0" :: ["   LOCATION:      /x"]) =
      parseEpkg wLpps5 "/r/c5.epkg"
        (["LABEL:            T1"] ++ ["ghostcomp 1.0 2.0"]) ∧
    ("c5.epkg: prerequisite missing: ghostcomp" ∈
      ["c5.epkg: prerequisite missing: ghostcomp"] ∧
      "/r/c5.epkg" ∉ ([] : List String)) := by
  have h := @claim_C5 wLpps5 "/r/c5.epkg" ["LABEL:            T1"]
    "ghostcomp 1.0 2.0" ["   LOCATION:      /x"] wS5
    "ghostcomp" "1.0" "2.0" (by rfl) (by decide) (by decide) (by rfl)
  exact ⟨h.1, h.2.1, h.2.2
    [("/r/c5.epkg", ["LABEL:            T1"] ++
      "ghostcomp 1.0 2.0" :: ["   LOCATION:      /x"])] [] []
    ["c5.epkg: prerequisite missing: ghostcomp"]
    (by simp) (by decide) (by rfl)⟩

/-- C6: when the parsing loop reaches (with no earlier rejection) a
prerequisite line whose component is installed at a level outside the
declared [min, max] range (integer vectors compared Python-style
lexicographically), the candidate is rejected on the spot with the exact
`levels do not match` reason naming min, installed display string and
max, and the remaining metadata lines are never looked at. -/
theorem claim_C6 {lpps : List (String × LppLevel)} {path : String}
    {pre : List String} {line : String} {post : List String} {s : Epkg}
    {pr minl maxl : String} {cur : LppLevel} {minI maxI : List Int}
    (hpre : parseEpkg lpps path pre = .ok (s, false))
    (hpr : matchPrereq (pyRstripL line.toList) = some (pr, minl, maxl))
    (hplus : (pyRstripL line.toList).head? ≠ some '+')
    (hcur : lookupD lpps pr = some cur)
    (hmin : pyIntList (splitOnCharS '.' minl) = .ok minI)
    (hmax : pyIntList (splitOnCharS '.' maxl) = .ok maxI)
    (hout : (pyListLt cur.int minI || pyListLt maxI cur.int) = true) :
    parseEpkg lpps path (pre ++ line :: post) =
      .ok ({ s with
              prereq := dictInsert s.prereq pr (minl, maxl),
              reject := some (basename path ++ ": prerequisite " ++ pr ++
                " levels do not match: " ++ minl ++ " < " ++ cur.str ++
                " < " ++ maxl) }, true) ∧
    parseEpkg lpps path (pre ++ line :: post) =
      parseEpkg lpps path (pre ++ [line]) := by
  have hparse := @parseEpkg_stops_range lpps path pre line post s
    pr minl maxl cur minI maxI hpre hpr hplus hcur hmin hmax hout
  have hparse1 := @parseEpkg_stops_range lpps path pre line [] s
    pr minl maxl cur minI maxI hpre hpr hplus hcur hmin hmax hout
  exact ⟨hparse, by rw [hparse, hparse1]⟩

/-- C6 witness: a concrete candidate whose prerequisite range lies above
the installed level. -/
theorem claim_C6_witness :
    parseEpkg wLpps6 "/r/c6.epkg" (["LABEL:            T2"] ++
      "bos.rte 7.2.0.0 7.2.9.9" :: ["   LOCATION:      /x"]) =
      .ok ({ wS6 with
              prereq := dictInsert wS6.prereq "bos.rte"
                ("7.2.0.0", "7.2.9.9"),
              reject := some ("c6.epkg: prerequisite bos.rte levels " ++
                "do not match: 7.2.0.0 < 7.1.5.0 < 7.2.9.9") }, true) ∧
    parseEpkg wLpps6 "/r/c6.epkg" (["LABEL:            T2"] ++
      "bos.rte 7.2.0.0 7.2.9.9" :: ["   LOCATION:      /x"]) =
      parseEpkg wLpps6 "/r/c6.epkg"
        (["LABEL:            T2"] ++ ["bos.rte 7.2.0.0 7.2.9.9"]) :=
  @claim_C6 wLpps6 "/r/c6.epkg" ["LABEL:            T2"]
    "bos.rte 7.2.0.0 7.2.9.9" ["   LOCATION:      /x"] wS6
    "bos.rte" "7.2.0.0" "7.2.9.9" { str := "7.1.5.0", int := [7, 1, 5, 0] }
    [7, 2, 0, 0] [7, 2, 9, 9]
    (by rfl) (by decide) (by decide) (by rfl) (by rfl) (by rfl) (by decide)

/-! Claim C7. -/

/-- C7: the locked_files dict check_epkgs builds is the first-writer-wins
flattening of the installed efixes' file sets (its lookup agrees with
taking the first table entry owning the file), and a candidate that
parses without a prerequisite rejection but touches a file in that dict
is rejected with the exact reason naming the owning efix label, never
reaching the accept list (in a batch of distinct paths). -/
theorem claim_C7 {lpps : List (String × LppLevel)} {path : String}
    {lines : List String} {e0 : Epkg} {b : Bool} {f ow : String}
    {inputs : List (String × List String)}
    {efixes : List (String × EfixEntry)} {acc rej : List String}
    (hp : parseEpkg lpps path lines = .ok (e0, b))
    (hrej : e0.reject = none)
    (hf : f ∈ e0.files)
    (how : lookupD (buildLockedFiles efixes) f = some ow)
    (hin : (path, lines) ∈ inputs)
    (hnd : (inputs.map Prod.fst).Nodup)
    (hch : check_epkgs inputs lpps efixes = .ok (acc, rej)) :
    (∀ efx : List (String × EfixEntry), ∀ k,
      lookupD (buildLockedFiles efx) k = firstOwner efx k) ∧
    (basename path ++ ": installed efix " ++ ow ++ " is locking " ++ f)
      ∈ rej ∧
    path ∉ acc := by
  refine ⟨fun efx k => lookup_buildLocked efx, ?_, ?_⟩
  all_goals obtain ⟨e, rjs, hev, hmem, hsome⟩ :=
    evalEpkg_locked hp hrej hf how
  all_goals obtain ⟨info, rej1, hph, hacc, hrej2⟩ := check_shape hch
  · have hall := phase1_rej_mem hph hin hev
    have h1 := hall _ hmem
    rw [hrej2, List.mem_insertionSort]
    simp [h1]
  · have hnokey := phase1_not_key hph hnd (by simp [keysOf]) hin hev hsome
    intro hmem2
    rw [hacc] at hmem2
    exact hnokey (acc_mem_keysOf_info hmem2)

/-- C7 witness: a candidate touching two files locked by installed efix
E1 is rejected citing E1, and the lock map agrees with its first-owner
description. -/
theorem claim_C7_witness :
    lookupD (buildLockedFiles [("E1", wEfix1)]) "/a" =
      firstOwner [("E1", wEfix1)] "/a" ∧
    "c1.epkg: installed efix E1 is locking /a" ∈
      ["c1.epkg: installed efix E1 is locking /a",
       "c1.epkg: installed efix E1 is locking /b"] ∧
    "/r/c1.epkg" ∉ ([] : List String) := by
  have h := @claim_C7 [] "/r/c1.epkg"
    ["   LOCATION:      /a", "   LOCATION:      /b"]
    { path := "/r/c1.epkg", label := "", pkg_date := none,
      sec_from_epoch := -1, filesets := [],
      files := ["/a", "/b"], prereq := [], reject := none }
    false "/a" "E1"
    [("/r/c1.epkg", ["   LOCATION:      /a", "   LOCATION:      /b"])]
    [("E1", wEfix1)]
    [] ["c1.epkg: installed efix E1 is locking /a",
        "c1.epkg: installed efix E1 is locking /b"]
    (by rfl) (by rfl) (by decide) (by rfl) (by simp) (by decide) (by rfl)
  exact ⟨h.1 _ "/a", h.2.1, h.2.2⟩

/-! Claim C8. -/


theorem parse_lpps_skip {l : String} {rest : List String}
    {acc : List (String × LppLevel)}
    (hlen : (splitOnCharS ':' l).length < 3) :
    parse_lpps_aux (l :: rest) acc = parse_lpps_aux rest acc := by
  have hstep : parse_lpps_aux (l :: rest) acc =
      (match splitOnCharS ':' l with
       | _ :: name :: ver :: _ =>
         match pyIntList (splitOnCharS '.' (hyphensToDots ver)) with
         | .error m => .error m
         | .ok is => parse_lpps_aux rest (dictInsert acc name ⟨ver, is⟩)
       | _ => parse_lpps_aux rest acc) := rfl
  rw [hstep]
  cases hs : splitOnCharS ':' l with
  | nil => rfl
  | cons a t =>
    cases t with
    | nil => rfl
    | cons b t2 =>
      cases t2 with
      | nil => rfl
      | cons c t3 =>
        rw [hs] at hlen
        simp at hlen
        omega

/-- C8 (amended): an installed-level line with fewer than three
colon-separated fields is skipped with only entry-local effect, and a
candidate whose captured packaging date fails to_utc_epoch keeps only a
candidate-local effect (it proceeds with the -1 sentinel and is not
rejected); but the claim's full statement fails, because a level segment
that int() cannot parse raises an uncaught ValueError (see the
counterexample). -/
theorem claim_C8 {l : String} {rest : List String}
    {lpps : List (String × LppLevel)} {locked : List (String × String)}
    {path : String} {lines : List String} {e0 : Epkg} {b : Bool}
    {d msg : String}
    (hlen : (splitOnCharS ':' l).length < 3)
    (hp : parseEpkg lpps path lines = .ok (e0, b))
    (hrej : e0.reject = none)
    (hdate : e0.pkg_date = some d)
    (hbad : to_utc_epoch d = (-1, msg))
    (hcl : ∀ f ∈ e0.files, lookupD locked f = none) :
    parse_lpps_info (l :: rest) = parse_lpps_info rest ∧
    evalEpkg lpps locked path lines = .ok (setSec e0, []) ∧
    (setSec e0).sec_from_epoch = -1 := by
  refine ⟨parse_lpps_skip hlen, evalEpkg_clean hp hrej hcl, ?_⟩
  unfold setSec
  rw [hdate]
  dsimp only
  rw [hbad]

/-- C8 witness: a short table line is skipped, and a candidate whose
packaging date does not parse survives with the -1 sentinel. -/
theorem claim_C8_witness :
    parse_lpps_info ["short"] = parse_lpps_info [] ∧
    evalEpkg [] [] "/r/c8.epkg"
      ["PACKAGING DATE:   Xxx Yyy 99 99:99:99 2019"] =
      .ok (setSec wS8, []) ∧
    (setSec wS8).sec_from_epoch = -1 :=
  @claim_C8 "short" [] [] [] "/r/c8.epkg"
    ["PACKAGING DATE:   Xxx Yyy 99 99:99:99 2019"] wS8
    false "Xxx Yyy 99 99:99:99 2019" "EXCEPTION: cannot parse packaging date"
    (by decide) (by rfl) (by rfl) (by rfl) (by rfl) (by simp [wS8])

/-- C8 counterexample: a table line whose version has a non-integer
segment aborts parse_lpps_info with the uncaught int() ValueError, and a
prerequisite level string with a bare plus sign likewise aborts
check_epkgs, contradicting the claim that malformed input never aborts
either function. -/
theorem claim_C8_counterexample :
    parse_lpps_info ["bos:bos.rte:7.x.0"] =
      .error "invalid literal for int() with base 10: x" ∧
    check_epkgs [("/r/c8.epkg", ["bos.rte 7.+.0 7.2"])] wLpps5 [] =
      .error "invalid literal for int() with base 10: +" :=
  ⟨rfl, rfl⟩

/-! Claims C9 and C10. -/


/-- C9: the CDT packaging date of the spec maps to the epoch second of
2017-10-10T04:35:09Z (the fixed CDT = UTC-5 offset), and every date
string matched by the no-timezone regex (four-digit trailing year, no
timezone token) is converted exactly as if its timezone were UTC (zero
offset applied to the strptime/timegm value). -/
theorem claim_C9 :
    to_utc_epoch "Mon Oct 9 23:35:09 CDT 2017" = (1507610109, "") ∧
    ∀ (s : String) (p : DateParts), matchDateNoTz s.toList = some p →
      to_utc_epoch s = utcResult p := by
  refine ⟨rfl, ?_⟩
  intro s p h
  unfold to_utc_epoch utcResult
  rw [h]

/-- C9 witness: the same timestamp with its timezone token removed is
parsed by the no-timezone regex and converted with a zero offset. -/
theorem claim_C9_witness :
    matchDateNoTz "Mon Oct 9 23:35:09 2017".toList = some wNoTzParts ∧
    to_utc_epoch "Mon Oct 9 23:35:09 2017" = utcResult wNoTzParts ∧
    utcResult wNoTzParts = (1507592109, "") :=
  ⟨rfl, claim_C9.2 "Mon Oct 9 23:35:09 2017" wNoTzParts rfl, rfl⟩

/-- C10: in parse_emgr, reaching an EFIX LABEL line while no label is
current (as after an EFIX ID reset) reassigns that label's table entry
to fresh empty file and package sets, discarding anything an earlier
block with the same label accumulated; the concrete two-block run keeps
only the second block's contents for the shared label. -/
theorem claim_C10 {st : EmgrSt} {line : String} {lbl : String}
    (hlab : st.label = "")
    (hm : matchAnchorKV "EFIX LABEL:".toList (pyRstripL line.toList) =
      some lbl) :
    (emgrLine st line).efixes = dictInsert st.efixes lbl ⟨[], []⟩ ∧
    lookupD (emgrLine st line).efixes lbl = some ⟨[], []⟩ ∧
    parse_emgr wEmgrLines = [("L1", ⟨["/f2"], []⟩)] := by
  obtain ⟨sp, tk, hl, hsp, hspall, htk, htkall⟩ := matchAnchorKV_inv hm
  have hcond : ¬(pyRstripL line.toList = [] ∨
      (pyRstripL line.toList).head? = some '+' ∨
      (pyRstripL line.toList).head? = some '=') := by
    rw [hl]
    simp
  have hid : matchEfixId (pyRstripL line.toList) = false := by
    rw [hl]
    rfl
  have hstep : emgrLine st line =
      { st with
          label := lbl
          efixes := dictInsert st.efixes lbl ⟨[], []⟩ } := by
    unfold emgrLine
    rw [if_neg hcond]
    rw [if_neg (show ¬ matchEfixId (pyRstripL line.toList) = true by
      rw [hid]; simp)]
    rw [if_pos hlab, hm]
  refine ⟨by rw [hstep], ?_, rfl⟩
  rw [hstep]
  exact lookupD_dictInsert_self _

/-- C10 witness: the label line of a second block sharing label L1
resets the table entry, discarding the first block's file and package. -/
theorem claim_C10_witness :
    (emgrLine wSt10 "EFIX LABEL: L1").efixes =
      dictInsert wSt10.efixes "L1" ⟨[], []⟩ ∧
    lookupD (emgrLine wSt10 "EFIX LABEL: L1").efixes "L1" =
      some ⟨[], []⟩ ∧
    parse_emgr wEmgrLines = [("L1", ⟨["/f2"], []⟩)] :=
  @claim_C10 wSt10 "EFIX LABEL: L1" "L1" (by rfl) (by rfl)

end Flrtvc
